import Mathlib

/-!
# Verification of the ML Anthology normalization engine

A shallow embedding of the normalization and identity-generation engine of
the mlanthology repository (`adapters/common.py`), together with theorems
settling the specification claims about it.

Python strings are modelled as lists of Unicode code points (`PyStr := List Nat`),
Python dicts as association lists with unique keys, and raising code as
`Except`-valued functions.  Unicode character-class tables (`str.isalpha`,
`str.lower`, NFKD decomposition, the `html.unescape` named-entity table,
`unidecode`) are embedded faithfully on the ASCII and Latin-1 ranges that the
development evaluates; the doc comment of each such table states its scope.
-/

namespace MLAnthology

/-- A Python string: the list of its Unicode code points. -/
abbrev PyStr := List Nat

/-- Convert a Lean string literal into its code-point list. -/
def pstr (s : String) : PyStr := s.data.map (fun c => c.toNat)

/-- Python `str.isspace` / the `re` whitespace class `\s` for `str` patterns
(both use the same Unicode whitespace set in CPython). -/
def pyIsSpace (c : Nat) : Bool :=
  (9 ≤ c && c ≤ 13) || (28 ≤ c && c ≤ 31) || c == 32 || c == 0x85 || c == 0xA0 ||
  c == 0x1680 || (0x2000 ≤ c && c ≤ 0x200A) || c == 0x2028 || c == 0x2029 ||
  c == 0x202F || c == 0x205F || c == 0x3000

/-- ASCII letter, the regex class `[A-Za-z]`. -/
def isAsciiLetter (c : Nat) : Bool :=
  (65 ≤ c && c ≤ 90) || (97 ≤ c && c ≤ 122)

/-- ASCII lowercase letter, the regex class `[a-z]`. -/
def isAsciiLower (c : Nat) : Bool := 97 ≤ c && c ≤ 122

/-- ASCII digit. -/
def isAsciiDigit (c : Nat) : Bool := 48 ≤ c && c ≤ 57

/-- The regex class `[a-zA-Z0-9]`. -/
def isAsciiAlnum (c : Nat) : Bool := isAsciiLetter c || isAsciiDigit c

/-- The regex class `[a-z0-9]` (lowercase ASCII alphanumeric). -/
def isLowerAlnum (c : Nat) : Bool := isAsciiLower c || isAsciiDigit c

/-- ASCII hexadecimal digit. -/
def isAsciiHexDigit (c : Nat) : Bool :=
  isAsciiDigit c || (97 ≤ c && c ≤ 102) || (65 ≤ c && c ≤ 70)

/-- Python `str.isalpha` per code point, embedded on the ASCII, Latin-1,
Latin Extended-A/B and CJK Unified Ideograph ranges (all code points the
development evaluates); other code points are treated as non-alphabetic. -/
def pyIsAlphaB (c : Nat) : Bool :=
  isAsciiLetter c || c == 0xAA || c == 0xB5 || c == 0xBA ||
  (0xC0 ≤ c && c ≤ 0xD6) || (0xD8 ≤ c && c ≤ 0xF6) || (0xF8 ≤ c && c ≤ 0x24F) ||
  (0x4E00 ≤ c && c ≤ 0x9FFF)

/-- Uppercase property per code point, embedded on ASCII and Latin-1
(plus U+0178).  Code points outside the table are treated as uncased. -/
def isUpperChar (c : Nat) : Bool :=
  (65 ≤ c && c ≤ 90) || (0xC0 ≤ c && c ≤ 0xD6) || (0xD8 ≤ c && c ≤ 0xDE) || c == 0x178

/-- Lowercase property per code point, embedded on ASCII and Latin-1.
Code points outside the table are treated as uncased. -/
def isLowerChar (c : Nat) : Bool :=
  (97 ≤ c && c ≤ 122) || c == 0xB5 || (0xDF ≤ c && c ≤ 0xF6) || (0xF8 ≤ c && c ≤ 0xFF)

/-- A cased code point (lowercase or uppercase; the titlecase category has no
member in the embedded range). -/
def isCasedB (c : Nat) : Bool := isUpperChar c || isLowerChar c

/-- Python `str.lower` per code point, embedded on ASCII and Latin-1
(plus U+0178 -> U+00FF); identity elsewhere. -/
def pyLowerChar (c : Nat) : Nat :=
  if 65 ≤ c ∧ c ≤ 90 then c + 32
  else if 0xC0 ≤ c ∧ c ≤ 0xDE ∧ c ≠ 0xD7 then c + 32
  else if c = 0x178 then 0xFF
  else c

/-- Python `str.lower` on a string (no embedded code point expands under
lowercasing). -/
def pyLowerStr (s : PyStr) : PyStr := s.map pyLowerChar

/-- Titlecase mapping per code point (used by Python `str.title`), embedded on
ASCII and Latin-1: `ß` titlecases to the two-character string `Ss`,
`µ` to U+039C, `ÿ` to U+0178; identity outside the table. -/
def titlecaseChar (c : Nat) : List Nat :=
  if c = 0xDF then [83, 115]
  else if c = 0xB5 then [0x39C]
  else if c = 0xFF then [0x178]
  else if 97 ≤ c ∧ c ≤ 122 then [c - 32]
  else if 0xE0 ≤ c ∧ c ≤ 0xFE ∧ c ≠ 0xF7 then [c - 32]
  else [c]

/-- Python `str.title`: titlecase a character that does not follow a cased
character, lowercase one that does. -/
def pyTitleStr (s : PyStr) : PyStr :=
  (s.foldl
    (fun (acc : List Nat × Bool) c =>
      (acc.1 ++ (if acc.2 then [pyLowerChar c] else titlecaseChar c), isCasedB c))
    ([], false)).1

/-- Python `str.isupper` on a string: at least one cased character and every
cased character uppercase. -/
def strIsUpper (s : PyStr) : Bool :=
  s.any isCasedB && s.all (fun c => !isCasedB c || isUpperChar c)

/-- Python `str.islower` on a string: at least one cased character and every
cased character lowercase. -/
def strIsLower (s : PyStr) : Bool :=
  s.any isCasedB && s.all (fun c => !isCasedB c || isLowerChar c)

/-- Python `str.split()` with no arguments: the maximal runs of
non-whitespace characters. -/
def pySplit : PyStr → List PyStr
  | [] => []
  | c :: r =>
    if pyIsSpace c then pySplit r
    else (c :: r.takeWhile (fun d => !pyIsSpace d)) ::
      pySplit (r.dropWhile (fun d => !pyIsSpace d))
termination_by s => s.length
decreasing_by
  simp_wf
  exact Nat.lt_succ_of_le ((List.dropWhile_sublist _).length_le)

/-- Python `" ".join`. -/
def joinSpace : List PyStr → PyStr
  | [] => []
  | [t] => t
  | t :: r => t ++ 32 :: joinSpace r

/-- Python `str.strip()` with no arguments (strip Unicode whitespace from
both ends). -/
def pyStrip (s : PyStr) : PyStr :=
  ((s.dropWhile pyIsSpace).reverse.dropWhile pyIsSpace).reverse

/-- Python `str.strip("-")`. -/
def stripHyphens (s : PyStr) : PyStr :=
  ((s.dropWhile (· == 45)).reverse.dropWhile (· == 45)).reverse

/-- First-match lookup in an association list of strings. -/
def lookupAssoc : List (PyStr × PyStr) → PyStr → Option PyStr
  | [], _ => none
  | (k, v) :: r, x => if k = x then some v else lookupAssoc r x

/-! ## html.unescape

The repository calls the standard library `html.unescape`.  It scans for the
regex `&(#[0-9]+;?|#[xX][0-9a-fA-F]+;?|[^\t\n\f <&#;]{1,32};?)` and replaces
each match.  The named-entity table below is restricted to the entities this
development evaluates; numeric character references are handled in full except
that the Windows-1252 remapping and removal of some control-range code points
(`html._invalid_charrefs` / `html._invalid_codepoints`) are elided, since no
theorem evaluates a numeric reference in those ranges. -/

/-- A character allowed inside a named character reference:
the regex class `[^\t\n\f <&#;]`. -/
def isNameChar (c : Nat) : Bool :=
  !(c == 9 || c == 10 || c == 12 || c == 32 || c == 60 || c == 38 || c == 35 || c == 59)

/-- Value of a run of decimal digits. -/
def natOfDec (ds : List Nat) : Nat := ds.foldl (fun a d => a * 10 + (d - 48)) 0

/-- Value of a run of hexadecimal digits. -/
def natOfHex (ds : List Nat) : Nat :=
  ds.foldl
    (fun a d =>
      a * 16 + (if d ≤ 57 then d - 48 else if d ≤ 70 then d - 55 else d - 87)) 0

/-- Embedded subset of the `html5` named-entity table (entities appear both
with and without the trailing semicolon, as in the stdlib table). -/
def html5sub : List (PyStr × PyStr) :=
  [ (pstr ("amp;"), pstr ("&")), (pstr ("amp"), pstr ("&")),
    (pstr ("lt;"), pstr ("<")), (pstr ("lt"), pstr ("<")),
    (pstr ("gt;"), pstr (">")), (pstr ("gt"), pstr (">")),
    (pstr ("quot;"), pstr ("\"")), (pstr ("quot"), pstr ("\"")),
    (pstr ("apos;"), pstr ("\x27")),
    (pstr ("nbsp;"), [0xA0]), (pstr ("nbsp"), [0xA0]) ]

/-- Replacement for a numeric character reference: surrogates and
out-of-range values produce U+FFFD. -/
def numCharref (num : Nat) : PyStr :=
  if (0xD800 ≤ num ∧ num ≤ 0xDFFF) ∨ num > 0x10FFFF then [0xFFFD] else [num]

/-- The longest-prefix fallback of `html._replace_charref` for a named
reference not found in the table: try prefixes of decreasing length down
to 2, else reproduce the original text. -/
def goPref (s : PyStr) : Nat → PyStr
  | 0 => 38 :: s
  | 1 => 38 :: s
  | x + 2 =>
    match lookupAssoc html5sub (s.take (x + 2)) with
    | some v => v ++ s.drop (x + 2)
    | none => goPref s (x + 1)

/-- Replacement for a named character reference (`s` includes the trailing
semicolon when one was matched). -/
def namedCharref (s : PyStr) : PyStr :=
  match lookupAssoc html5sub s with
  | some v => v
  | none => goPref s (s.length - 1)

/-- Try to match a character reference directly after a `&`.
Returns the replacement text and the number of characters consumed. -/
def matchCharref (r : PyStr) : Option (PyStr × Nat) :=
  match r with
  | 35 :: r2 =>
    match r2 with
    | c :: r3 =>
      if c = 120 ∨ c = 88 then
        let hs := r3.takeWhile isAsciiHexDigit
        if hs = [] then none
        else
          let rest := r3.drop hs.length
          some (numCharref (natOfHex hs),
            2 + hs.length + (if rest.head? = some 59 then 1 else 0))
      else
        let ds := r2.takeWhile isAsciiDigit
        if ds = [] then none
        else
          let rest := r2.drop ds.length
          some (numCharref (natOfDec ds),
            1 + ds.length + (if rest.head? = some 59 then 1 else 0))
    | [] => none
  | _ =>
    let nameRun := (r.takeWhile isNameChar).take 32
    if nameRun = [] then none
    else
      let rest := r.drop nameRun.length
      if rest.head? = some 59 then
        some (namedCharref (nameRun ++ [59]), nameRun.length + 1)
      else
        some (namedCharref nameRun, nameRun.length)

/-- The substitution pass of `html.unescape`: scan left to right, replacing
each character reference. -/
def unescSub : PyStr → PyStr
  | [] => []
  | c :: rest =>
    if c = 38 then
      match matchCharref rest with
      | some (repl, n) => repl ++ unescSub (rest.drop n)
      | none => 38 :: unescSub rest
    else c :: unescSub rest
termination_by s => s.length
decreasing_by
  all_goals simp_wf
  all_goals first
    | exact Nat.lt_succ_of_le ((List.drop_sublist _ _).length_le)
    | omega

/-- Python `html.unescape`: identity when the text has no `&`, otherwise the
substitution pass. -/
def unescape (s : PyStr) : PyStr :=
  if s.contains 38 then unescSub s else s

/-! ## repair_mojibake -/

/-- Strict UTF-8 decoding of a byte list (as CPython `bytes.decode("utf-8")`):
rejects stray continuation bytes, truncated sequences, overlong encodings,
surrogates and values above U+10FFFF. -/
def utf8Decode : List Nat → Option (List Nat)
  | [] => some []
  | b :: rest =>
    if b < 0x80 then (utf8Decode rest).map (b :: ·)
    else if b < 0xC2 then none
    else if b < 0xE0 then
      match rest with
      | b2 :: r =>
        if 0x80 ≤ b2 ∧ b2 < 0xC0 then
          (utf8Decode r).map (((b - 0xC0) * 0x40 + (b2 - 0x80)) :: ·)
        else none
      | [] => none
    else if b < 0xF0 then
      match rest with
      | b2 :: b3 :: r =>
        let cp := (b - 0xE0) * 0x1000 + (b2 - 0x80) * 0x40 + (b3 - 0x80)
        if 0x80 ≤ b2 ∧ b2 < 0xC0 ∧ 0x80 ≤ b3 ∧ b3 < 0xC0 ∧ 0x800 ≤ cp ∧
            ¬(0xD800 ≤ cp ∧ cp ≤ 0xDFFF) then
          (utf8Decode r).map (cp :: ·)
        else none
      | _ => none
    else if b < 0xF5 then
      match rest with
      | b2 :: b3 :: b4 :: r =>
        let cp := (b - 0xF0) * 0x40000 + (b2 - 0x80) * 0x1000 +
          (b3 - 0x80) * 0x40 + (b4 - 0x80)
        if 0x80 ≤ b2 ∧ b2 < 0xC0 ∧ 0x80 ≤ b3 ∧ b3 < 0xC0 ∧ 0x80 ≤ b4 ∧ b4 < 0xC0 ∧
            0x10000 ≤ cp ∧ cp ≤ 0x10FFFF then
          (utf8Decode r).map (cp :: ·)
        else none
      | _ => none
    else none

/-- `text.encode("latin-1")`: each code point at most 0xFF becomes the byte of
the same value; any larger code point raises (`none`). -/
def encodeLatin1 (s : PyStr) : Option (List Nat) :=
  if s.all (fun c => c ≤ 0xFF) then some s else none

/-- `repair_mojibake` from `adapters/common.py`: if any character lies in
U+00C2..U+00DF, re-encode as Latin-1 and decode as UTF-8; return the input
unchanged when the text is empty, has no signature character, or the
round-trip fails. -/
def repair_mojibake (text : PyStr) : PyStr :=
  if text = [] then text
  else if ¬ text.any (fun c => decide (0xC2 ≤ c) && decide (c ≤ 0xDF)) then text
  else
    match encodeLatin1 text with
    | none => text
    | some bs =>
      match utf8Decode bs with
      | some r => r
      | none => text

/-! ## normalize_text and slugify -/

/-- NFKD decomposition per code point.  The table is embedded for ASCII
(no decomposition) and the Latin-1 letters with canonical or compatibility
decompositions; code points outside the table are kept undecomposed. -/
def nfkdChar (c : Nat) : List Nat :=
  if c < 128 then [c]
  else if c = 0xAA then [97]
  else if c = 0xBA then [111]
  else if c = 0xB5 then [0x3BC]
  else if c = 0xC0 then [65, 0x300] else if c = 0xC1 then [65, 0x301]
  else if c = 0xC2 then [65, 0x302] else if c = 0xC3 then [65, 0x303]
  else if c = 0xC4 then [65, 0x308] else if c = 0xC5 then [65, 0x30A]
  else if c = 0xC7 then [67, 0x327]
  else if c = 0xC8 then [69, 0x300] else if c = 0xC9 then [69, 0x301]
  else if c = 0xCA then [69, 0x302] else if c = 0xCB then [69, 0x308]
  else if c = 0xCC then [73, 0x300] else if c = 0xCD then [73, 0x301]
  else if c = 0xCE then [73, 0x302] else if c = 0xCF then [73, 0x308]
  else if c = 0xD1 then [78, 0x303]
  else if c = 0xD2 then [79, 0x300] else if c = 0xD3 then [79, 0x301]
  else if c = 0xD4 then [79, 0x302] else if c = 0xD5 then [79, 0x303]
  else if c = 0xD6 then [79, 0x308]
  else if c = 0xD9 then [85, 0x300] else if c = 0xDA then [85, 0x301]
  else if c = 0xDB then [85, 0x302] else if c = 0xDC then [85, 0x308]
  else if c = 0xDD then [89, 0x301]
  else if c = 0xE0 then [97, 0x300] else if c = 0xE1 then [97, 0x301]
  else if c = 0xE2 then [97, 0x302] else if c = 0xE3 then [97, 0x303]
  else if c = 0xE4 then [97, 0x308] else if c = 0xE5 then [97, 0x30A]
  else if c = 0xE7 then [99, 0x327]
  else if c = 0xE8 then [101, 0x300] else if c = 0xE9 then [101, 0x301]
  else if c = 0xEA then [101, 0x302] else if c = 0xEB then [101, 0x308]
  else if c = 0xEC then [105, 0x300] else if c = 0xED then [105, 0x301]
  else if c = 0xEE then [105, 0x302] else if c = 0xEF then [105, 0x308]
  else if c = 0xF1 then [110, 0x303]
  else if c = 0xF2 then [111, 0x300] else if c = 0xF3 then [111, 0x301]
  else if c = 0xF4 then [111, 0x302] else if c = 0xF5 then [111, 0x303]
  else if c = 0xF6 then [111, 0x308]
  else if c = 0xF9 then [117, 0x300] else if c = 0xFA then [117, 0x301]
  else if c = 0xFB then [117, 0x302] else if c = 0xFC then [117, 0x308]
  else if c = 0xFD then [121, 0x301] else if c = 0xFF then [121, 0x308]
  else [c]

/-- `unidecode` per code point: identity on ASCII; transliteration table
restricted to the code points this development evaluates; unmapped
code points transliterate to the empty string, as in the library. -/
def unidecodeChar (c : Nat) : List Nat :=
  if c < 128 then [c]
  else if c = 0x4E2D then pstr ("Zhong ")
  else if c = 0x6587 then pstr ("Wen ")
  else []

/-- `unidecode` on a string. -/
def unidecodeStr (s : PyStr) : PyStr := s.flatMap unidecodeChar

/-- `normalize_text` from `adapters/common.py`: NFKD decomposition, encode to
ASCII ignoring errors; if the result is empty up to whitespace while the
input was not, fall back to `unidecode` of the original text (the library is
modelled as installed, so the `ImportError` branch is not taken). -/
def normalize_text (t : PyStr) : PyStr :=
  let result := (t.flatMap nfkdChar).filter (fun c => decide (c < 128))
  if pyStrip result = [] ∧ pyStrip t ≠ [] then unidecodeStr t else result

/-- `_has_cjk`: any CJK Unified Ideograph. -/
def hasCJK (t : PyStr) : Bool := t.any (fun c => decide (0x4E00 ≤ c) && decide (c ≤ 0x9FFF))

/-- `_romanize_cjk`: unidecode, remove spaces, lowercase (the `unidecode`
module is modelled as available). -/
def romanizeCJK (t : PyStr) : PyStr :=
  pyLowerStr ((unidecodeStr t).filter (fun c => c ≠ 32))

/-- One pass of `re.sub(r"[^a-z0-9]+", "-", s)`: each maximal run of
characters outside `[a-z0-9]` becomes a single hyphen.  The boolean records
whether the scanner is inside such a run. -/
def collapseAux : Bool → PyStr → PyStr
  | _, [] => []
  | inRun, c :: rest =>
    if isLowerAlnum c then c :: collapseAux false rest
    else if inRun then collapseAux true rest
    else 45 :: collapseAux true rest

/-- `slugify` from `adapters/common.py`: lowercase, `normalize_text`,
collapse non-`[a-z0-9]` runs to `-`, strip edge hyphens. -/
def slugify (text : PyStr) : PyStr :=
  stripHyphens (collapseAux false (normalize_text (pyLowerStr text)))

/-- The author structure used by the name pipeline: the `given` and `family`
entries of a Python author dict (absent/None entries are read as `""` by the
code via `.get(...) or ""`). -/
structure Author where
  given : PyStr
  family : PyStr
deriving DecidableEq, Repr

/-- `slugify(text) or "unknown"`. -/
def slugOrUnknown (t : PyStr) : PyStr :=
  if slugify t = [] then pstr ("unknown") else slugify t

/-- `slugify_author` from `adapters/common.py`: slugify "family given" with
CJK name parts romanized as single tokens; `"unknown"` when the slug is
empty. -/
def slugify_author (author : Author) : PyStr :=
  let given := pyStrip author.given
  let family := pyStrip author.family
  let family := if hasCJK family then romanizeCJK family else family
  let given := if hasCJK given then romanizeCJK given else given
  let text := pyStrip (family ++ 32 :: given)
  slugOrUnknown text

/-! ## _strip_latex, first_content_word, make_bibtex_key helpers -/

/-- Try to match `\[a-zA-Z]+\{([^}]*)\}` directly after a backslash.
Returns the group (the brace content) and the remainder, with a proof that
the remainder is strictly shorter (the match spans at least three more
characters than the group). -/
def matchLatexCmd (rest : PyStr) : Option (PyStr × { r : PyStr // r.length < rest.length }) :=
  let letters := rest.takeWhile isAsciiLetter
  if hl : letters = [] then none
  else
    match hd : rest.drop letters.length with
    | 123 :: r2 =>
      let inner := r2.takeWhile (fun c => c != 125)
      match hd2 : r2.drop inner.length with
      | 125 :: r3 =>
        some (inner, ⟨r3, by
          have e1 : (rest.drop letters.length).length = rest.length - letters.length :=
            List.length_drop _ _
          have e2 : (r2.drop inner.length).length = r2.length - inner.length :=
            List.length_drop _ _
          rw [hd] at e1
          rw [hd2] at e2
          have hpos : 0 < letters.length := List.length_pos.mpr hl
          simp only [List.length_cons] at e1 e2
          omega⟩)
      | _ => none
    | _ => none

/-- One pass of `re.sub(r"\\[a-zA-Z]+\{([^}]*)\}", r"\1", text)`: scan left to
right, unwrap each `\command{content}` occurrence to its content. -/
def latexSub1 : PyStr → PyStr
  | [] => []
  | c :: rest =>
    if c = 92 then
      match matchLatexCmd rest with
      | some ir => ir.1 ++ latexSub1 ir.2.1
      | none => c :: latexSub1 rest
    else c :: latexSub1 rest
termination_by s => s.length
decreasing_by
  all_goals simp_wf
  all_goals exact Nat.lt_succ_of_lt ir.2.2

/-- The `while prev != text` loop of `_strip_latex`, iterated with fuel: each
productive pass strictly shortens the text, so `length + 1` passes always
reach the fixed point. -/
def stripLatexGo : Nat → PyStr → PyStr
  | 0, s => s
  | fuel + 1, s =>
    let t := latexSub1 s
    if t = s then s else stripLatexGo fuel t

/-- One pass of `re.sub(r"\\[a-zA-Z]+", "", text)`: delete bare commands. -/
def latexBareSub : PyStr → PyStr
  | [] => []
  | c :: rest =>
    if c = 92 then
      let letters := rest.takeWhile isAsciiLetter
      if letters = [] then c :: latexBareSub rest
      else latexBareSub (rest.drop letters.length)
    else c :: latexBareSub rest
termination_by s => s.length
decreasing_by
  all_goals simp_wf
  all_goals first
    | exact Nat.lt_succ_of_le ((List.drop_sublist _ _).length_le)
    | omega

/-- `_strip_latex` from `adapters/common.py`: repeatedly unwrap
`\command{content}`, then delete bare commands and the characters `$`, `{`,
`}`. -/
def stripLatex (text : PyStr) : PyStr :=
  (latexBareSub (stripLatexGo (text.length + 1) text)).filter
    (fun c => !(c == 36 || c == 123 || c == 125))

mutual

/-- Scanner for `re.findall(r"[a-zA-Z0-9]+(?:-[a-zA-Z0-9]+)*", s)`: skip to
the next alphanumeric character and start a token there. -/
def ftMain : PyStr → List PyStr
  | [] => []
  | c :: r =>
    if isAsciiAlnum c then
      ftAux (r.dropWhile isAsciiAlnum) (c :: r.takeWhile isAsciiAlnum)
    else ftMain r
termination_by s => (s.length, 0)
decreasing_by
  all_goals simp_wf
  all_goals first
    | exact Prod.Lex.left _ _ (Nat.lt_succ_of_le ((List.dropWhile_sublist _).length_le))
    | exact Prod.Lex.left _ _ (Nat.lt_succ_self _)

/-- Extend the current token `cur` with `-run` groups while possible, then
emit it and resume scanning. -/
def ftAux : PyStr → PyStr → List PyStr
  | 45 :: c :: r, cur =>
    if isAsciiAlnum c then
      ftAux ((c :: r).dropWhile isAsciiAlnum) (cur ++ 45 :: c :: r.takeWhile isAsciiAlnum)
    else cur :: ftMain (45 :: c :: r)
  | s, cur => cur :: ftMain s
termination_by s _ => (s.length, 1)
decreasing_by
  all_goals simp_wf
  all_goals first
    | exact Prod.Lex.left _ _
        (Nat.lt_of_le_of_lt ((List.dropWhile_sublist _).length_le) (by simp))
    | exact Prod.Lex.right _ (by omega)

end

/-- The token list of `first_content_word`. -/
def reFindTokens (s : PyStr) : List PyStr := ftMain s

/-- The stopword set of `first_content_word`. -/
def STOPWORDS : List PyStr :=
  ([ "a", "an", "the", "on", "in", "at", "of", "for", "to", "and", "or",
     "with", "by", "from", "is", "are", "was", "were", "be", "been",
     "being", "do", "does", "did", "can", "could", "will", "would",
     "shall", "should", "may", "might", "must", "have", "has", "had",
     "not", "no", "nor", "but", "yet", "so", "if", "then", "than",
     "that", "this", "these", "those", "it", "its", "as", "into",
     "through", "about", "above", "below", "between", "under", "over",
     "after", "before", "during", "without", "toward", "towards",
     "how", "what", "when", "where", "which", "who", "whom", "why" ]).map
    (fun w => pstr w)

/-- `re.sub(r"[^a-z0-9]", "", token.lower())`: the residual-punctuation strip
applied to each candidate token. -/
def tokenSlug (t : PyStr) : PyStr := (pyLowerStr t).filter isLowerAlnum

/-- The first loop of `first_content_word`: return the slug of the first
token whose slug has length at least 2, is not a stopword and contains a
lowercase letter. -/
def fcwLoop1 : List PyStr → Option PyStr
  | [] => none
  | t :: r =>
    let slug := tokenSlug t
    if 2 ≤ slug.length ∧ slug ∉ STOPWORDS ∧ slug.any isAsciiLower then some slug
    else fcwLoop1 r

/-- The fallback loop of `first_content_word`: the slug of the first token
containing a letter. -/
def fcwLoop2 : List PyStr → Option PyStr
  | [] => none
  | t :: r =>
    let slug := tokenSlug t
    if slug.any isAsciiLower then some slug else fcwLoop2 r

/-- `first_content_word` from `adapters/common.py`. -/
def first_content_word (title : PyStr) : PyStr :=
  match fcwLoop1 (reFindTokens (stripLatex (normalize_text (unescape title)))) with
  | some s => s
  | none =>
    match fcwLoop2 (reFindTokens (stripLatex (normalize_text (unescape title)))) with
    | some s => s
    | none => pstr ("paper")

/-! ## resolve_bibtex_collisions -/

/-- Lookup in the `seen` counter dict. -/
def lookupCount : List (PyStr × Nat) → PyStr → Option Nat
  | [], _ => none
  | p :: r, k => if p.1 = k then some p.2 else lookupCount r k

/-- `seen[key] += 1`. -/
def bumpCount (seen : List (PyStr × Nat)) (k : PyStr) : List (PyStr × Nat) :=
  seen.map (fun p => if p.1 = k then (p.1, p.2 + 1) else p)

/-- The left-to-right pass of `resolve_bibtex_collisions`.  The suffix
character `chr(ord("a") + seen[key] - 1)` is modelled as the code point
`97 + n` (the `chr` range check only binds beyond 1114008 duplicates of a
single key and is not modelled). -/
def resolveAux (seen : List (PyStr × Nat)) : List PyStr → List PyStr
  | [] => []
  | k :: rest =>
    match lookupCount seen k with
    | some n => (k ++ [45, 97 + n]) :: resolveAux (bumpCount seen k) rest
    | none => k :: resolveAux ((k, 0) :: seen) rest

/-- `resolve_bibtex_collisions` from `adapters/common.py`. -/
def resolve_bibtex_collisions (keys : List PyStr) : List PyStr :=
  resolveAux [] keys

/-! ## parse_author_name -/

/-- The `_NAME_PARTICLES` set. -/
def NAME_PARTICLES : List PyStr :=
  ([ "van", "von", "de", "del", "della", "der", "den", "di", "du",
     "das", "dos", "do", "da", "le", "la", "el", "al", "bin", "ibn",
     "ten", "ter", "het" ]).map (fun w => pstr w)

/-- The scan `for i in range(1, len(parts) - 1)` of `parse_author_name`:
the first case-sensitive particle index among `1 .. n-2`, else `n-1`. -/
def familyStartIdx (parts : List PyStr) : Nat :=
  match (List.range' 1 (parts.length - 2)).find?
      (fun i => decide ((parts.getD i []) ∈ NAME_PARTICLES)) with
  | some i => i
  | none => parts.length - 1

/-- `parse_author_name` from `adapters/common.py`: strip, split, and scan
token indices `1 .. n-2` (the loop `range(1, len(parts) - 1)`) for the first
case-sensitive particle; the family runs from there (default: last token
only). -/
def parse_author_name (name : PyStr) : Author :=
  if pyStrip name = [] then ⟨[], []⟩
  else if (pySplit (pyStrip name)).length = 1 then ⟨[], (pySplit (pyStrip name)).headD []⟩
  else
    ⟨joinSpace ((pySplit (pyStrip name)).take (familyStartIdx (pySplit (pyStrip name)))),
     joinSpace ((pySplit (pyStrip name)).drop (familyStartIdx (pySplit (pyStrip name))))⟩

/-! ## Raw-name cleaning (_clean_raw_author_name) -/

/-- The exception classes the embedding distinguishes.  `keyError` is raised
by the required-field check of `normalize_paper`; `attributeError` by
`a.get` on a bare-string author; `indexError` by `tokens[-1]` on an empty
token list; `typeError` stands for the exceptions CPython raises when a
processed field holds a non-string value. -/
inductive PyErr where
  | keyError (missing : List PyStr) (present : List PyStr)
  | attributeError
  | typeError
  | indexError
deriving DecidableEq, Repr

/-- The case-insensitive alternation of `_ANNOTATION_RE`, expanded into its
lowercase literal alternatives in the regex backtracking order (the
duplicate `phd` produced by expanding `Ph\.?D\.?` after `PhD` is dropped;
at most one alternative can be followed by the closing parenthesis, so the
order never matters). -/
def ANNOT_ALTS : List PyStr :=
  ([ "he/him", "she/her", "they/them", "phd", "ph.d.", "ph.d", "phd.",
     "dr.", "dr", "jr.", "jr", "sr.", "sr",
     "m.d.", "m.d", "md.", "md", "m.sc.", "m.sc", "msc.", "msc" ]).map
    (fun w => pstr w)

/-- Match `_ANNOTATION_RE` (`\s*\((?:...)\)\s*`, case-insensitive) at the
start of `s`; returns the number of characters consumed. -/
def matchAnnotAt (s : PyStr) : Option Nat :=
  let wsl := (s.takeWhile pyIsSpace).length
  let t := s.drop wsl
  match t with
  | 40 :: t2 =>
    match ANNOT_ALTS.find?
        (fun e => pyLowerStr (t2.take e.length) == e && (t2.drop e.length).head? == some 41) with
    | some e =>
      let tw := ((t2.drop (e.length + 1)).takeWhile pyIsSpace).length
      some (wsl + 1 + e.length + 1 + tw)
    | none => none
  | _ => none

/-- `re.sub(_ANNOTATION_RE, " ", s)`: scan left to right, replacing each
match with a single space. -/
def annotSub : PyStr → PyStr
  | [] => []
  | c :: rest =>
    match matchAnnotAt (c :: rest) with
    | some n => 32 :: annotSub (rest.drop (n - 1))
    | none => c :: annotSub rest
termination_by s => s.length
decreasing_by
  all_goals simp_wf
  all_goals omega

/-- The character class `[A-Za-z\u0080-￿-]` of `_PAREN_NAME_RE`. -/
def isParenNameChar (c : Nat) : Bool :=
  isAsciiLetter c || (0x80 ≤ c && c ≤ 0xFFFF) || c == 45

/-- Match `_PAREN_NAME_RE` (`\s*\([A-Za-z\u0080-￿-]+\)\s*`) at the start
of `s`; returns the number of characters consumed. -/
def matchParenAt (s : PyStr) : Option Nat :=
  let wsl := (s.takeWhile pyIsSpace).length
  let t := s.drop wsl
  match t with
  | 40 :: t2 =>
    let run := t2.takeWhile isParenNameChar
    if run = [] then none
    else if (t2.drop run.length).head? = some 41 then
      let tw := ((t2.drop (run.length + 1)).takeWhile pyIsSpace).length
      some (wsl + 1 + run.length + 1 + tw)
    else none
  | _ => none

/-- `re.sub(_PAREN_NAME_RE, " ", s)`. -/
def parenSub : PyStr → PyStr
  | [] => []
  | c :: rest =>
    match matchParenAt (c :: rest) with
    | some n => 32 :: parenSub (rest.drop (n - 1))
    | none => c :: parenSub rest
termination_by s => s.length
decreasing_by
  all_goals simp_wf
  all_goals omega

/-- The `_BIBTEX_ACCENT_MAP` keys (without the backslash) in dict insertion
order, paired with their replacement code points. -/
def BIBTEX_KEYS : List (PyStr × Nat) :=
  [ (pstr ("L"), 0x141), (pstr ("l"), 0x142), (pstr ("O"), 0xD8), (pstr ("o"), 0xF8),
    (pstr ("AE"), 0xC6), (pstr ("ae"), 0xE6), (pstr ("AA"), 0xC5), (pstr ("aa"), 0xE5),
    (pstr ("SS"), 0x1E9E), (pstr ("ss"), 0xDF), (pstr ("DH"), 0xD0), (pstr ("dh"), 0xF0),
    (pstr ("TH"), 0xDE), (pstr ("th"), 0xFE), (pstr ("NG"), 0x14A), (pstr ("ng"), 0x14B),
    (pstr ("i"), 0x131), (pstr ("j"), 0x237) ]

/-- The lookahead class `(?=[A-Za-z\u0080-￿])` of `_BIBTEX_CMD_RE`. -/
def isBibtexFollow (c : Nat) : Bool :=
  isAsciiLetter c || (0x80 ≤ c && c ≤ 0xFFFF)

/-- Try the alternation of `_BIBTEX_CMD_RE` directly after a backslash:
first key (in listed order) that is a prefix of `rest` and is followed by a
letter.  Returns the replacement code point and the key length. -/
def bibtexTry (rest : PyStr) : Option (Nat × Nat) :=
  (BIBTEX_KEYS.find?
    (fun p =>
      p.1.isPrefixOf rest &&
        (match (rest.drop p.1.length).head? with
         | some c => isBibtexFollow c
         | none => false))).map (fun p => (p.2, p.1.length))

/-- `_BIBTEX_CMD_RE.sub(_replace_bibtex, s)` (the lookahead is not
consumed). -/
def bibtexSub : PyStr → PyStr
  | [] => []
  | c :: rest =>
    if c = 92 then
      match bibtexTry rest with
      | some (v, n) => v :: bibtexSub (rest.drop n)
      | none => c :: bibtexSub rest
    else c :: bibtexSub rest
termination_by s => s.length
decreasing_by
  all_goals simp_wf
  all_goals first
    | exact Nat.lt_succ_of_le ((List.drop_sublist _ _).length_le)
    | omega

/-- `_clean_raw_author_name` from `adapters/common.py`: decode HTML
entities, strip `*`, remove annotation and parenthetical-nickname matches,
replace residual BibTeX accent commands, collapse whitespace. -/
def cleanRawAuthorName (name : PyStr) : PyStr :=
  joinSpace (pySplit (bibtexSub (parenSub (annotSub ((unescape name).filter (fun c => c != 42))))))

/-! ## The author fix-up stages -/

/-- `(.+)$` on the remainder `r`: the group may not contain a newline, and
`$` also matches just before a final newline. -/
def dotPlusEnd (r : PyStr) : Option PyStr :=
  if r = [] then none
  else if ¬ r.contains 10 then some r
  else if r.getLast? = some 10 ∧ r.dropLast ≠ [] ∧ ¬ r.dropLast.contains 10 then
    some r.dropLast
  else none

/-- Backtracking for `\s+(.+)$`: try consuming `j` whitespace characters,
greedily from the full run length down to one. -/
def tryWs (ini : PyStr) (after : PyStr) : Nat → Option (PyStr × PyStr)
  | 0 => none
  | j + 1 =>
    match dotPlusEnd (after.drop (j + 1)) with
    | some g2 => some (ini, g2)
    | none => tryWs ini after j

/-- Match `^([A-Za-z]\.?)\s+(.+)$` against `s` (the family field): returns
the initial and the remaining family name.  When the optional dot is taken
the no-dot backtrack can never succeed (`\s+` cannot match the dot), so it
is not attempted. -/
def matchInitFam (s : PyStr) : Option (PyStr × PyStr) :=
  match s with
  | [] => none
  | c :: rest =>
    if isAsciiLetter c then
      if rest.head? = some 46 then
        tryWs [c, 46] rest.tail (rest.tail.takeWhile pyIsSpace).length
      else tryWs [c] rest (rest.takeWhile pyIsSpace).length
    else none

/-- `_fix_misplaced_initial` from `adapters/common.py`. -/
def fixMisplacedInitial (a : Author) : Author :=
  match matchInitFam a.family with
  | some (ini, rest) =>
    { given := if a.given = [] then ini else pyStrip (a.given ++ 32 :: ini),
      family := rest }
  | none => a

/-- `_SINGLE_LETTER_RE`: `^[A-Za-z]\.?$`. -/
def isSingleLetterTok (t : PyStr) : Bool :=
  match t with
  | [c] => isAsciiLetter c
  | [c, d] => isAsciiLetter c && d == 46
  | _ => false

/-- The scan `for i in range(len(given_words) - 1, 0, -1)` of
`_fix_misplaced_particle`: walk backwards, recording each particle index
and stopping at the first non-particle (index 0 is never examined). -/
def particleScan (gw : List PyStr) : Nat → Option Nat → Option Nat
  | 0, acc => acc
  | i + 1, acc =>
    if decide (pyLowerStr (gw.getD (i + 1) []) ∈ NAME_PARTICLES) then
      particleScan gw i (some (i + 1))
    else acc

/-- `_fix_misplaced_particle` from `adapters/common.py`. -/
def fixMisplacedParticle (a : Author) : Author :=
  if a.given = [] ∨ a.family = [] then a
  else if (pySplit a.given).length < 2 then a
  else
    match particleScan (pySplit a.given) ((pySplit a.given).length - 1) none with
    | none => a
    | some ps =>
      { given := joinSpace ((pySplit a.given).take ps),
        family := joinSpace ((pySplit a.given).drop ps) ++ 32 :: a.family }

/-- `_fix_single_letter_family` from `adapters/common.py`. -/
def fixSingleLetterFamily (a : Author) : Author :=
  if ¬ isSingleLetterTok a.family ∨ a.given = [] then a
  else if ¬ (pySplit a.given).any isSingleLetterTok then a
  else if (pySplit a.given).filter (fun t => !isSingleLetterTok t) = [] then a
  else
    { given := joinSpace ((pySplit a.given).filter isSingleLetterTok ++ [a.family]),
      family := joinSpace ((pySplit a.given).filter (fun t => !isSingleLetterTok t)) }

/-- `_fix_leading_hyphen_family` from `adapters/common.py`.  `tokens[-1]`
raises `IndexError` when `given` is whitespace-only (truthy but with no
tokens), so the stage is `Except`-valued. -/
def fixLeadingHyphenFamily (a : Author) : Except PyErr Author :=
  if ¬ (a.family.head? = some 45) ∨ a.given = [] then .ok a
  else
    match (pySplit a.given).getLast? with
    | none => .error .indexError
    | some t =>
      .ok { given := joinSpace (pySplit a.given).dropLast, family := t ++ a.family }

/-- The `_is_junk` check of `_fix_punctuation_only_fields`. -/
def isJunkField (s : PyStr) : Bool :=
  if s = [] then false
  else if s.contains 64 || s.head? == some 123 || s.getLast? == some 125 then true
  else !(s.any pyIsAlphaB)

/-- `_fix_punctuation_only_fields` from `adapters/common.py`. -/
def fixPunctuationOnlyFields (a : Author) : Author :=
  let given := if isJunkField a.given then [] else a.given
  if a.family = [] ∨ isJunkField a.family then
    if given ≠ [] ∧ given.any pyIsAlphaB then parse_author_name given
    else if isJunkField a.family then ⟨[], []⟩
    else ⟨given, a.family⟩
  else ⟨given, a.family⟩

/-! ## normalize_title_case and clean_code_url -/

/-- `normalize_title_case` from `adapters/common.py`. -/
def normalize_title_case (title : PyStr) : PyStr :=
  if title = [] then title
  else
    let alpha := title.filter pyIsAlphaB
    if alpha = [] then title
    else if strIsUpper alpha || strIsLower alpha then pyTitleStr title
    else title

/-- Match `https?://` at the start of `w`; returns the scheme length. -/
def matchScheme (w : PyStr) : Option Nat :=
  if (pstr ("https://")).isPrefixOf w then some 8
  else if (pstr ("http://")).isPrefixOf w then some 7
  else none

/-- Match `_MD_LINK_RE` (`\[(?:[^\]]*\])?[^\]]*\]\((https?://[^)]+)\)`) at
the start of `s`: returns the captured URL and the number of characters
consumed.  The optional group is tried first, as the regex engine does. -/
def matchMdLinkAt (s : PyStr) : Option (PyStr × Nat) :=
  match s with
  | 91 :: t =>
    let tailPart := fun (v : PyStr) (consumed : Nat) =>
      match v with
      | 40 :: w =>
        match matchScheme w with
        | some schemeLen =>
          let url := w.takeWhile (fun c => c != 41)
          if schemeLen < url.length ∧ (w.drop url.length).head? = some 41 then
            some (url, consumed + 1 + url.length + 1)
          else none
        | none => none
      | _ => none
    let withOpt :=
      let A := t.takeWhile (fun c => c != 93)
      match t.drop A.length with
      | 93 :: u =>
        let B := u.takeWhile (fun c => c != 93)
        match u.drop B.length with
        | 93 :: v => tailPart v (1 + A.length + 1 + B.length + 1)
        | _ => none
      | _ => none
    match withOpt with
    | some r => some r
    | none =>
      let B := t.takeWhile (fun c => c != 93)
      match t.drop B.length with
      | 93 :: v => tailPart v (1 + B.length + 1)
      | _ => none
  | _ => none

/-- `_MD_LINK_RE.findall(s)`: all captured URLs, scanning left to right. -/
def mdLinkFind : PyStr → List PyStr
  | [] => []
  | c :: rest =>
    match matchMdLinkAt (c :: rest) with
    | some (url, n) => url :: mdLinkFind (rest.drop (n - 1))
    | none => mdLinkFind rest
termination_by s => s.length
decreasing_by
  all_goals simp_wf
  all_goals omega

/-- Match `(https?://\S+)` at the start of `s`. -/
def matchBareUrl (s : PyStr) : Option PyStr :=
  match matchScheme s with
  | some schemeLen =>
    let run := (s.drop schemeLen).takeWhile (fun c => !pyIsSpace c)
    if run = [] then none else some (s.take schemeLen ++ run)
  | none => none

/-- `re.search(r"(https?://\S+)", s)`: first match. -/
def bareUrlSearch : PyStr → Option PyStr
  | [] => none
  | c :: rest =>
    match matchBareUrl (c :: rest) with
    | some u => some u
    | none => bareUrlSearch rest

/-- Python `str.rstrip(".,;)")`. -/
def rstripUrlPunct (u : PyStr) : PyStr :=
  (u.reverse.dropWhile (fun c => c == 46 || c == 44 || c == 59 || c == 41)).reverse

/-- `clean_code_url` from `adapters/common.py`. -/
def clean_code_url (raw : PyStr) : PyStr :=
  if raw = [] then []
  else
    let raw := pyStrip raw
    if ((pstr ("https://")).isPrefixOf raw || (pstr ("http://")).isPrefixOf raw) &&
        !(raw.contains 32) && !(raw.contains 59) then raw
    else
      let urls := mdLinkFind raw
      if urls ≠ [] then
        match urls.find?
            (fun u => decide ((pstr ("github.com")) <:+: u) || decide ((pstr ("gitlab.com")) <:+: u)) with
        | some u => u
        | none => urls.headD []
      else
        match bareUrlSearch raw with
        | some u => rstripUrlPunct u
        | none => []

/-! ## The paper dict model and normalize_paper -/

/-- An element of a raw paper's `authors` sequence: either a bare name
string or an author dict, represented by its `given` / `family` / `slug`
entries (`none` = absent; other dict entries are never read by the code). -/
inductive AuthorVal where
  | bare (s : PyStr)
  | dict (given : Option PyStr) (family : Option PyStr) (slug : Option PyStr)
deriving DecidableEq, Repr

/-- A Python value stored in a paper dict: a string, an author list, or any
other value (opaque — such values are only ever passed through or rejected
with a type error). -/
inductive PVal where
  | str (s : PyStr)
  | authors (l : List AuthorVal)
  | other (n : Nat)
deriving DecidableEq, Repr

/-- A paper dict: an association list of string keys and values. -/
abbrev PyDict := List (PyStr × PVal)

/-- Dict lookup (first match). -/
def dictGet : PyDict → PyStr → Option PVal
  | [], _ => none
  | (k', v) :: r, k => if k' = k then some v else dictGet r k

/-- `key in paper`. -/
def hasKeyB (p : PyDict) (k : PyStr) : Bool := (dictGet p k).isSome

/-- `paper.get(key, default)`. -/
def dictGetD (p : PyDict) (k : PyStr) (d : PVal) : PVal := (dictGet p k).getD d

/-- `paper.keys()` in insertion order. -/
def dictKeys (p : PyDict) : List PyStr := p.map Prod.fst

/-- Lexicographic comparison of strings by code point, as Python `<=` on
`str`. -/
def lexLe : PyStr → PyStr → Bool
  | [], _ => true
  | _ :: _, [] => false
  | a :: as, b :: bs => if a < b then true else if b < a then false else lexLe as bs

/-- Insertion step of a stable insertion sort. -/
def insertSorted (x : PyStr) : List PyStr → List PyStr
  | [] => [x]
  | y :: r => if lexLe x y then x :: y :: r else y :: insertSorted x r

/-- Python `sorted` on a list of strings. -/
def pySorted (l : List PyStr) : List PyStr := l.foldr insertSorted []

/-- The canonical field keys. -/
def kBibtexKey : PyStr := pstr ("bibtex_key")

def kTitle : PyStr := pstr ("title")

def kAuthors : PyStr := pstr ("authors")

def kYear : PyStr := pstr ("year")

def kVenue : PyStr := pstr ("venue")

def kVenueName : PyStr := pstr ("venue_name")

def kVenueType : PyStr := pstr ("venue_type")

def kVolume : PyStr := pstr ("volume")

def kNumber : PyStr := pstr ("number")

def kPages : PyStr := pstr ("pages")

def kAbstract : PyStr := pstr ("abstract")

def kPdfUrl : PyStr := pstr ("pdf_url")

def kVenueUrl : PyStr := pstr ("venue_url")

def kDoi : PyStr := pstr ("doi")

def kOpenreviewUrl : PyStr := pstr ("openreview_url")

def kCodeUrl : PyStr := pstr ("code_url")

def kSource : PyStr := pstr ("source")

def kSourceId : PyStr := pstr ("source_id")

/-- `_REQUIRED_PAPER_FIELDS`. -/
def REQUIRED_PAPER_FIELDS : List PyStr := [kBibtexKey, kTitle, kAuthors, kYear]

/-- The ordered key set of the canonical output dict of `normalize_paper`. -/
def CANONICAL_KEYS : List PyStr :=
  [ kBibtexKey, kTitle, kAuthors, kYear, kVenue, kVenueName, kVenueType,
    kVolume, kNumber, kPages, kAbstract, kPdfUrl, kVenueUrl, kDoi,
    kOpenreviewUrl, kCodeUrl, kSource, kSourceId ]

/-- Modelled from the spec: the venue-slug -> type registry is loaded from
`hugo/data/venues.yaml`, which is not under `src/`; per the spec it is a
static lookup with default `"workshop"`.  No theorem in this development
depends on the table's contents, so it is embedded empty. -/
def VENUES_TABLE : List (PyStr × PyStr) := []

/-- `get_venue_type` from `adapters/common.py`, on a string slug. -/
def get_venue_type (venueSlug : PyStr) : PyStr :=
  (lookupAssoc VENUES_TABLE venueSlug).getD (pstr ("workshop"))

/-- `get_venue_type` applied to the stored `venue` value (dict lookup works
for any hashable value; a non-string value is never in the table). -/
def getVenueTypeVal (v : PVal) : PyStr :=
  match v with
  | .str s => get_venue_type s
  | _ => pstr ("workshop")

/-- `a.get("given") or ""`. -/
def getOrEmpty (o : Option PyStr) : PyStr := o.getD []

/-- The five post-parse fix-up stages of `normalize_paper`, in source
order, followed by the junk-field stage. -/
def authorPipelineE (a : Author) : Except PyErr Author :=
  (fixLeadingHyphenFamily
      (fixSingleLetterFamily (fixMisplacedParticle (fixMisplacedInitial a)))).map
    fixPunctuationOnlyFields

/-- The per-author body of the `for a in paper["authors"]` loop: a bare
string has no `.get` attribute and raises; a dict is cleaned and run through
the fix-up pipeline. -/
def processAuthor (av : AuthorVal) : Except PyErr Author :=
  match av with
  | .bare _ => .error .attributeError
  | .dict g f _ =>
    authorPipelineE
      { given := cleanRawAuthorName (repair_mojibake (getOrEmpty g)),
        family := cleanRawAuthorName (repair_mojibake (getOrEmpty f)) }

/-- The author loop of `normalize_paper`. -/
def processAuthors : List AuthorVal → Except PyErr (List Author)
  | [] => .ok []
  | a :: r =>
    match processAuthor a with
    | .ok b =>
      match processAuthors r with
      | .ok bs => .ok (b :: bs)
      | .error e => .error e
    | .error e => .error e

/-- The survivor filter `a.get("given") or a.get("family")`. -/
def authorKeep (a : Author) : Bool := !a.given.isEmpty || !a.family.isEmpty

/-- `{**a, "slug": slugify_author(a)}`. -/
def attachSlug (a : Author) : AuthorVal :=
  .dict (some a.given) (some a.family) (some (slugify_author a))

/-- Read a field that the code processes as a string (`paper["title"]`):
a non-string value raises. -/
def getStrField (p : PyDict) (k : PyStr) : Except PyErr PyStr :=
  match dictGet p k with
  | some (.str s) => .ok s
  | _ => .error .typeError

/-- Read an optional string field (`paper.get(k, "")`) that the code then
processes as a string. -/
def getStrFieldD (p : PyDict) (k : PyStr) : Except PyErr PyStr :=
  match dictGet p k with
  | some (.str s) => .ok s
  | none => .ok []
  | some _ => .error .typeError

/-- Read `paper["authors"]` as a sequence. -/
def getAuthorsField (p : PyDict) : Except PyErr (List AuthorVal) :=
  match dictGet p kAuthors with
  | some (.authors l) => .ok l
  | _ => .error .typeError

/-- The canonical output dict literal of `normalize_paper`. -/
def mkOut (paper : PyDict) (title : PyStr) (authorsOut : List AuthorVal)
    (abstract codeUrl : PyStr) : PyDict :=
  let venue := dictGetD paper kVenue (.str [])
  [ (kBibtexKey, dictGetD paper kBibtexKey (.str [])),
    (kTitle, .str title),
    (kAuthors, .authors authorsOut),
    (kYear, dictGetD paper kYear (.str [])),
    (kVenue, venue),
    (kVenueName, dictGetD paper kVenueName (.str [])),
    (kVenueType, dictGetD paper kVenueType (.str (getVenueTypeVal venue))),
    (kVolume, dictGetD paper kVolume (.str [])),
    (kNumber, dictGetD paper kNumber (.str [])),
    (kPages, dictGetD paper kPages (.str [])),
    (kAbstract, .str abstract),
    (kPdfUrl, dictGetD paper kPdfUrl (.str [])),
    (kVenueUrl, dictGetD paper kVenueUrl (.str [])),
    (kDoi, dictGetD paper kDoi (.str [])),
    (kOpenreviewUrl, dictGetD paper kOpenreviewUrl (.str [])),
    (kCodeUrl, .str codeUrl),
    (kSource, dictGetD paper kSource (.str [])),
    (kSourceId, dictGetD paper kSourceId (.str [])) ]

/-- `normalize_paper` from `adapters/common.py`, with the evaluation order
of the Python function: required-field check, title, author loop, abstract,
`code_url`, then the output literal. -/
def normalize_paper (paper : PyDict) : Except PyErr PyDict :=
  if REQUIRED_PAPER_FIELDS.filter (fun f => !hasKeyB paper f) ≠ [] then
    .error (.keyError (REQUIRED_PAPER_FIELDS.filter (fun f => !hasKeyB paper f))
      (pySorted (dictKeys paper)))
  else
    match getStrField paper kTitle with
    | .error e => .error e
    | .ok t =>
      match getAuthorsField paper with
      | .error e => .error e
      | .ok rawAuthors =>
        match processAuthors rawAuthors with
        | .error e => .error e
        | .ok cleaned =>
          match getStrFieldD paper kAbstract with
          | .error e => .error e
          | .ok ab =>
            match getStrFieldD paper kCodeUrl with
            | .error e => .error e
            | .ok cu =>
              .ok (mkOut paper
                (normalize_title_case (repair_mojibake (unescape t)))
                ((cleaned.filter authorKeep).map attachSlug)
                (repair_mojibake ab)
                (clean_code_url cu))

/-- The paper produced by a successful `normalize_paper` call (`[]` when the
call failed; used to name concrete outputs). -/
def okOut (e : Except PyErr PyDict) : PyDict := e.toOption.getD []

deriving instance DecidableEq for Except

mutual

/-- Recogniser for the slug shape `[a-z0-9]+(-[a-z0-9]+)*`: a nonempty
lowercase-alphanumeric group followed by further `-`-separated groups. -/
def matchesSlug : PyStr → Bool
  | [] => false
  | c :: rest => isLowerAlnum c && matchesSlugTail rest

/-- Continuation of `matchesSlug` inside a group. -/
def matchesSlugTail : PyStr → Bool
  | [] => true
  | c :: rest =>
    if isLowerAlnum c then matchesSlugTail rest
    else c == 45 && matchesSlug rest

end

/-! ## Stability predicates and concrete inputs used by the claims -/

/-- The title cleaning chain of `normalize_paper`. -/
def titleChain (t : PyStr) : PyStr := normalize_title_case (repair_mojibake (unescape t))

/-- The title of `q` is a fixed point of the title cleaning chain. -/
def titleStableB (q : PyDict) : Bool :=
  match dictGet q kTitle with
  | some (.str s) => titleChain s == s
  | _ => false

/-- The abstract of `q` is a fixed point of `repair_mojibake`. -/
def abstractStableB (q : PyDict) : Bool :=
  match dictGet q kAbstract with
  | some (.str s) => repair_mojibake s == s
  | _ => false

/-- The `code_url` of `q` is a fixed point of `clean_code_url`. -/
def codeUrlStableB (q : PyDict) : Bool :=
  match dictGet q kCodeUrl with
  | some (.str s) => clean_code_url s == s
  | _ => false

/-- An output author entry re-enters the author pipeline unchanged. -/
def authorEntryStableB (av : AuthorVal) : Bool :=
  match av with
  | .dict (some g) (some f) _ =>
    match processAuthor av with
    | .ok b => decide (b = ⟨g, f⟩)
    | .error _ => false
  | _ => false

/-- Every author entry of `q` re-enters the author pipeline unchanged. -/
def authorsStableB (q : PyDict) : Bool :=
  match dictGet q kAuthors with
  | some (.authors l) => l.all authorEntryStableB
  | _ => false

/-- Counterexample input for idempotence: the abstract is doubly
mojibake-encoded (`Ã\u0083Â©`, code points C3 83 C2 A9), so a second
`repair_mojibake` pass changes it again. -/
def c1CexIn : PyDict :=
  [ (kBibtexKey, .str (pstr ("k"))), (kTitle, .str (pstr ("T"))),
    (kAuthors, .authors []), (kYear, .str (pstr ("2020"))),
    (kAbstract, .str [0xC3, 0x83, 0xC2, 0xA9]) ]

/-- The first `normalize_paper` output on `c1CexIn`. -/
def c1CexMid : PyDict := okOut (normalize_paper c1CexIn)

/-- Witness input for the amended idempotence claim. -/
def c1WitIn : PyDict :=
  [ (kBibtexKey, .str (pstr ("doe2020icml-learning"))),
    (kTitle, .str (pstr ("On Learning"))),
    (kAuthors, .authors [.dict (some (pstr ("John"))) (some (pstr ("Doe"))) none]),
    (kYear, .str (pstr ("2020"))) ]

/-- The first `normalize_paper` output on `c1WitIn`. -/
def c1WitMid : PyDict := okOut (normalize_paper c1WitIn)

/-- No key of the batch extends another key of the batch by a hyphen and a
single character (the side condition under which collision resolution is
collision-free). -/
def noSuffixExtensionB (keys : List PyStr) : Bool :=
  keys.all (fun k => keys.all (fun k' =>
    !(k'.length == k.length + 2 && decide (k'.take k.length = k) &&
      (k'.drop k.length).head? == some 45)))

/-- Counterexample batch for key uniqueness: `["a", "a", "a-a"]`. -/
def c2CexKeys : List PyStr := [[97], [97], [97, 45, 97]]

/-- Witness batch for the amended uniqueness claim: `["a", "a", "b"]`. -/
def c2WitKeys : List PyStr := [[97], [97], [98]]

/-- The spec's missing-field example input, `{"title": "x"}`. -/
def c3ExampleIn : PyDict := [(kTitle, .str (pstr ("x")))]

/-- Counterexample input for the failure iff-condition: all required fields
present, yet `normalize_paper` fails on the bare-string author. -/
def c3CexIn : PyDict :=
  [ (kBibtexKey, .str (pstr ("b1"))), (kTitle, .str (pstr ("S"))),
    (kAuthors, .authors [.bare (pstr ("Alice Smith"))]),
    (kYear, .str (pstr ("2021"))) ]

/-- Counterexample input: a raw paper whose `authors` holds a bare name
string. -/
def c4CexIn : PyDict :=
  [ (kBibtexKey, .str (pstr ("k4"))), (kTitle, .str (pstr ("T4"))),
    (kAuthors, .authors [.bare (pstr ("John Doe"))]),
    (kYear, .str (pstr ("2019"))) ]

/-- Witness input for the amended bare-author claim. -/
def c4WitIn : PyDict :=
  [ (kBibtexKey, .str (pstr ("k4w"))), (kTitle, .str (pstr ("T4w"))),
    (kAuthors, .authors
      [ .dict (some (pstr ("Mary"))) (some (pstr ("Major"))) none,
        .bare (pstr ("Jane Roe")) ]),
    (kYear, .str (pstr ("2018"))) ]

/-- Counterexample input for key pass-through: carries the extra key
`arxiv_url` that the cvf adapter actually sets. -/
def c5CexIn : PyDict :=
  [ (kBibtexKey, .str (pstr ("k5"))), (kTitle, .str (pstr ("T5"))),
    (kAuthors, .authors []), (kYear, .str (pstr ("2017"))),
    (pstr ("arxiv_url"), .str (pstr ("https://arxiv.org/abs/1"))) ]

/-- Output dictionary of `normalize_paper` on `c5CexIn`. -/
def c5CexOut : PyDict := okOut (normalize_paper c5CexIn)

/-- Witness input for the amended canonical-key claim. -/
def c5WitIn : PyDict :=
  [ (kBibtexKey, .str (pstr ("k5w"))), (kTitle, .str (pstr ("T5w"))),
    (kAuthors, .authors []), (kYear, .str (pstr ("2016"))),
    (pstr ("award"), .other 7) ]

/-- Output dictionary of `normalize_paper` on `c5WitIn`. -/
def c5WitOut : PyDict := okOut (normalize_paper c5WitIn)

/-- The title of the spec's `first_content_word` example,
`$\texttt{C2-DPO}$: a new method`. -/
def c7Title : PyStr :=
  [36, 92] ++ pstr ("texttt") ++ [123] ++ pstr ("C2-DPO") ++ [125, 36] ++
    pstr (": a new method")

/-- Witness input for the slug-shape claim. -/
def c10WitIn : PyDict :=
  [ (kBibtexKey, .str (pstr ("k10"))), (kTitle, .str (pstr ("T10"))),
    (kAuthors, .authors
      [ .dict (some (pstr ("Lihua"))) (some (pstr ("Xie"))) none,
        .dict none (some (pstr ("..."))) none ]),
    (kYear, .str (pstr ("2015"))) ]

/-- The `normalize_paper` output on `c10WitIn`. -/
def c10WitOut : PyDict := okOut (normalize_paper c10WitIn)

/-- The token chain of `first_content_word` before the selection loops. -/
def fcwTokens (title : PyStr) : List PyStr :=
  reFindTokens (stripLatex (normalize_text (unescape title)))

/-- The selection condition of the first `first_content_word` loop, as a
predicate on the raw token. -/
def goodTokB (t : PyStr) : Bool :=
  decide (2 ≤ (tokenSlug t).length) && !(decide (tokenSlug t ∈ STOPWORDS)) &&
    (tokenSlug t).any isAsciiLower

/-- The fallback condition: the token slug contains a letter. -/
def hasLetterB (t : PyStr) : Bool := (tokenSlug t).any isAsciiLower

/-- No two adjacent hyphens. -/
def noDoubleB : PyStr → Bool
  | [] => true
  | [_] => true
  | a :: b :: r => !(a == 45 && b == 45) && noDoubleB (b :: r)

/-- A string that is empty or has a non-whitespace character (the shape of
every `given` field inside the author pipeline; it rules out the
`IndexError` of `_fix_leading_hyphen_family`). -/
def NonWsOnly (s : PyStr) : Prop := s = [] ∨ ∃ c ∈ s, pyIsSpace c = false

/-- The strings emitted so far by `resolveAux` with counter state `seen`:
each key of `seen`, and its first `count` suffixed variants. -/
def Emitted (seen : List (PyStr × Nat)) (r : PyStr) : Prop :=
  (∃ p ∈ seen, r = p.1) ∨ (∃ p ∈ seen, ∃ i, i < p.2 ∧ r = p.1 ++ [45, 97 + i])

/-! # Lemmas about the string utilities -/

theorem mem_dropWhile_of_not {p : Nat → Bool} {c : Nat} :
    ∀ {l : List Nat}, c ∈ l → p c = false → c ∈ l.dropWhile p
  | a :: l, h, hc => by
    rw [List.dropWhile_cons]
    split
    · rcases List.mem_cons.mp h with rfl | h'
      · simp_all
      · exact mem_dropWhile_of_not h' hc
    · exact h

theorem mem_pyStrip {c : Nat} {s : PyStr} (h : c ∈ s) (hc : pyIsSpace c = false) :
    c ∈ pyStrip s := by
  unfold pyStrip
  rw [List.mem_reverse]
  exact mem_dropWhile_of_not (by rw [List.mem_reverse]; exact mem_dropWhile_of_not h hc) hc

theorem pyStrip_ne_nil {s : PyStr} (h : ∃ c ∈ s, pyIsSpace c = false) :
    pyStrip s ≠ [] := by
  obtain ⟨c, hm, hc⟩ := h
  exact List.ne_nil_of_mem (mem_pyStrip hm hc)

theorem pySplit_tokens {s : PyStr} :
    ∀ t ∈ pySplit s, t ≠ [] ∧ ∀ c ∈ t, pyIsSpace c = false := by
  induction s using pySplit.induct with
  | case1 => simp [pySplit]
  | case2 c r hc ih =>
    intro t ht
    rw [pySplit, if_pos hc] at ht
    exact ih t ht
  | case3 c r hc ih =>
    intro t ht
    rw [pySplit, if_neg hc] at ht
    rcases List.mem_cons.mp ht with rfl | h'
    · refine ⟨by simp, ?_⟩
      intro d hd
      rcases List.mem_cons.mp hd with rfl | hd'
      · exact Bool.eq_false_iff.mpr hc
      · have := List.mem_takeWhile_imp hd'
        simpa using this
    · exact ih t h'

theorem pySplit_eq_nil_iff {s : PyStr} :
    pySplit s = [] ↔ ∀ c ∈ s, pyIsSpace c = true := by
  induction s using pySplit.induct with
  | case1 => simp [pySplit]
  | case2 c r hc ih =>
    rw [pySplit, if_pos hc]
    simp only [List.mem_cons]
    constructor
    · intro h d hd
      rcases hd with rfl | hd'
      · exact hc
      · exact ih.mp h d hd'
    · intro h
      exact ih.mpr (fun d hd => h d (Or.inr hd))
  | case3 c r hc ih =>
    rw [pySplit, if_neg hc]
    simp only [List.mem_cons]
    constructor
    · intro h
      exact absurd h (by simp)
    · intro h
      exact absurd (h c (Or.inl rfl)) hc

theorem takeWhile_append_of_all {p : Nat → Bool} {y : Nat} {ys : List Nat} :
    ∀ {xs : List Nat}, (∀ x ∈ xs, p x = true) → p y = false →
      (xs ++ y :: ys).takeWhile p = xs ∧ (xs ++ y :: ys).dropWhile p = y :: ys
  | [], _, hy => by simp [List.takeWhile_cons, List.dropWhile_cons, hy]
  | x :: xs, h, hy => by
    have hx : p x = true := h x (List.mem_cons_self _ _)
    have ih := @takeWhile_append_of_all p y ys xs
      (fun a ha => h a (List.mem_cons_of_mem _ ha)) hy
    simp only [List.cons_append, List.takeWhile_cons, List.dropWhile_cons, hx]
    simp [ih.1, ih.2]

theorem takeWhile_eq_self_of_all {p : Nat → Bool} :
    ∀ {xs : List Nat}, (∀ x ∈ xs, p x = true) → xs.takeWhile p = xs ∧ xs.dropWhile p = []
  | [], _ => by simp
  | x :: xs, h => by
    have hx : p x = true := h x (List.mem_cons_self _ _)
    have ih := @takeWhile_eq_self_of_all p xs
      (fun a ha => h a (List.mem_cons_of_mem _ ha))
    simp only [List.takeWhile_cons, List.dropWhile_cons, hx]
    simp [ih.1, ih.2]

theorem pySplit_single {t : PyStr} (h0 : t ≠ [])
    (h : ∀ c ∈ t, pyIsSpace c = false) : pySplit t = [t] := by
  match t, h0 with
  | c :: r, _ =>
    have hc : pyIsSpace c = false := h c (List.mem_cons_self _ _)
    have hall : ∀ x ∈ r, (!pyIsSpace x) = true := by
      intro x hx
      simp [h x (List.mem_cons_of_mem _ hx)]
    have he := takeWhile_eq_self_of_all hall
    rw [pySplit, if_neg (by simp [hc]), he.1, he.2]
    simp [pySplit]

theorem pySplit_joinSpace :
    ∀ {ts : List PyStr}, (∀ t ∈ ts, t ≠ [] ∧ ∀ c ∈ t, pyIsSpace c = false) →
      pySplit (joinSpace ts) = ts
  | [], _ => by simp [joinSpace, pySplit]
  | [t], h => by
    rw [joinSpace]
    exact pySplit_single (h t (List.mem_cons_self _ _)).1 (h t (List.mem_cons_self _ _)).2
  | t :: t' :: r, h => by
    have ht := h t (List.mem_cons_self _ _)
    have ih := @pySplit_joinSpace (t' :: r)
      (fun a ha => h a (List.mem_cons_of_mem _ ha))
    show pySplit (t ++ 32 :: joinSpace (t' :: r)) = t :: t' :: r
    match t, ht with
    | c :: tr, ht =>
      have hc : pyIsSpace c = false := ht.2 c (List.mem_cons_self _ _)
      have hall : ∀ x ∈ tr, (!pyIsSpace x) = true := by
        intro x hx
        simp [ht.2 x (List.mem_cons_of_mem _ hx)]
      have hsp : (!pyIsSpace 32) = false := by simp [pyIsSpace]
      have happ := @takeWhile_append_of_all _ 32 (joinSpace (t' :: r)) tr hall hsp
      rw [List.cons_append, pySplit, if_neg (by simp [hc]), happ.1, happ.2]
      rw [pySplit, if_pos (by simp [pyIsSpace]), ih]

theorem joinSpace_ne_nil {ts : List PyStr} (h0 : ts ≠ [])
    (h : ∀ t ∈ ts, t ≠ []) : joinSpace ts ≠ [] := by
  match ts, h0 with
  | [t], _ =>
    rw [joinSpace]
    exact h t (List.mem_cons_self _ _)
  | t :: t' :: r, _ =>
    show t ++ 32 :: joinSpace (t' :: r) ≠ []
    simp

theorem mem_joinSpace {c : Nat} :
    ∀ {ts : List PyStr} {t : PyStr}, t ∈ ts → c ∈ t → c ∈ joinSpace ts
  | [t'], t, ht, hc => by
    rcases List.mem_singleton.mp ht with rfl
    rw [joinSpace]
    exact hc
  | t0 :: t1 :: r, t, ht, hc => by
    show c ∈ t0 ++ 32 :: joinSpace (t1 :: r)
    rcases List.mem_cons.mp ht with rfl | h'
    · exact List.mem_append_left _ hc
    · exact List.mem_append_right _ (List.mem_cons_of_mem _ (mem_joinSpace h' hc))

/-! # Lemmas for the slug shape (C10) -/

theorem isLowerAlnum_ne_45 {c : Nat} (h : isLowerAlnum c = true) : c ≠ 45 := by
  rintro rfl
  simp [isLowerAlnum, isAsciiLower, isAsciiDigit] at h

theorem collapseAux_chars (l : PyStr) :
    ∀ (b : Bool), ∀ c ∈ collapseAux b l, isLowerAlnum c = true ∨ c = 45 := by
  induction l with
  | nil => simp [collapseAux]
  | cons x r ih =>
    intro b c hc
    rw [collapseAux] at hc
    by_cases hx : isLowerAlnum x
    · rw [if_pos hx] at hc
      rcases List.mem_cons.mp hc with rfl | h'
      · exact Or.inl hx
      · exact ih false c h'
    · rw [if_neg hx] at hc
      cases b with
      | true => exact ih true c (by simpa using hc)
      | false =>
        simp only [Bool.false_eq_true, if_false] at hc
        rcases List.mem_cons.mp hc with rfl | h'
        · exact Or.inr rfl
        · exact ih true c h'

theorem collapseAux_true_head (l : PyStr) :
    ∀ {c : Nat}, (collapseAux true l).head? = some c → isLowerAlnum c = true := by
  induction l with
  | nil => simp [collapseAux]
  | cons x r ih =>
    intro c h
    rw [collapseAux] at h
    by_cases hx : isLowerAlnum x
    · rw [if_pos hx] at h
      simp only [List.head?_cons, Option.some.injEq] at h
      subst h
      exact hx
    · rw [if_neg hx] at h
      exact ih (by simpa using h)

theorem noDoubleB_cons {a : Nat} {l : PyStr} :
    noDoubleB (a :: l) = true ↔
      (∀ b, l.head? = some b → ¬(a = 45 ∧ b = 45)) ∧ noDoubleB l = true := by
  match l with
  | [] => simp [noDoubleB]
  | b :: r =>
    simp only [noDoubleB, Bool.and_eq_true, Bool.not_eq_true', Bool.and_eq_false_iff,
      List.head?_cons, Option.some.injEq]
    constructor
    · rintro ⟨h1, h2⟩
      refine ⟨?_, h2⟩
      rintro b' rfl ⟨rfl, rfl⟩
      simp at h1
    · rintro ⟨h1, h2⟩
      refine ⟨?_, h2⟩
      by_cases ha : a = 45
      · by_cases hb : b = 45
        · exact absurd ⟨ha, hb⟩ (h1 b rfl)
        · right; simpa using hb
      · left; simpa using ha

theorem noDoubleB_tail {a : Nat} {l : PyStr} (h : noDoubleB (a :: l) = true) :
    noDoubleB l = true := (noDoubleB_cons.mp h).2

theorem collapseAux_noDouble (l : PyStr) :
    ∀ (b : Bool), noDoubleB (collapseAux b l) = true := by
  induction l with
  | nil => intro b; simp [collapseAux, noDoubleB]
  | cons x r ih =>
    intro b
    rw [collapseAux]
    by_cases hx : isLowerAlnum x
    · rw [if_pos hx, noDoubleB_cons]
      refine ⟨?_, ih false⟩
      rintro b' _ ⟨rfl, _⟩
      exact absurd rfl (isLowerAlnum_ne_45 hx)
    · rw [if_neg hx]
      cases b with
      | true => simpa using ih true
      | false =>
        simp only [Bool.false_eq_true, if_false]
        rw [noDoubleB_cons]
        refine ⟨?_, ih true⟩
        rintro b' hb' ⟨_, rfl⟩
        exact absurd rfl (isLowerAlnum_ne_45 (collapseAux_true_head r hb'))

theorem noDoubleB_append_left : ∀ {l t : PyStr}, noDoubleB (l ++ t) = true → noDoubleB l = true
  | [], _, _ => rfl
  | [_], _, _ => rfl
  | a :: b :: r, t, h => by
    simp only [List.cons_append] at h
    simp only [noDoubleB, Bool.and_eq_true] at h ⊢
    exact ⟨h.1, @noDoubleB_append_left (b :: r) _ h.2⟩

theorem noDoubleB_suffix {l₂ l₁ : PyStr} (h : l₂ <:+ l₁) (hn : noDoubleB l₁ = true) :
    noDoubleB l₂ = true := by
  obtain ⟨t, rfl⟩ := h
  induction t with
  | nil => exact hn
  | cons a t ih => exact ih (noDoubleB_tail hn)

theorem noDoubleB_prefix {l₂ l₁ : PyStr} (h : l₂ <+: l₁) (hn : noDoubleB l₁ = true) :
    noDoubleB l₂ = true := by
  obtain ⟨t, rfl⟩ := h
  exact noDoubleB_append_left hn

theorem head_dropWhile_not {p : Nat → Bool} {l : PyStr} :
    ∀ {c : Nat}, (l.dropWhile p).head? = some c → p c = false := by
  induction l with
  | nil => simp
  | cons x r ih =>
    intro c h
    rw [List.dropWhile_cons] at h
    by_cases hx : p x = true
    · rw [if_pos hx] at h
      exact ih h
    · rw [if_neg hx] at h
      simp only [List.head?_cons, Option.some.injEq] at h
      subst h
      exact Bool.eq_false_iff.mpr hx

theorem stripHyphens_prefix_dropWhile (s : PyStr) :
    stripHyphens s <+: s.dropWhile (· == 45) := by
  unfold stripHyphens
  obtain ⟨t, ht⟩ := @List.dropWhile_suffix _ ((s.dropWhile (· == 45)).reverse) (· == 45)
  refine ⟨t.reverse, ?_⟩
  have := congrArg List.reverse ht
  simpa using this

theorem stripHyphens_head {s : PyStr} {c : Nat}
    (h : (stripHyphens s).head? = some c) : c ≠ 45 := by
  obtain ⟨t, ht⟩ := stripHyphens_prefix_dropWhile s
  have hh : (s.dropWhile (· == 45)).head? = some c := by
    rw [← ht]
    cases hs : stripHyphens s with
    | nil => rw [hs] at h; simp at h
    | cons x r =>
      rw [hs] at h
      simp only [List.head?_cons, Option.some.injEq] at h
      subst h
      rfl
  have h45 := head_dropWhile_not hh
  simpa using h45

theorem stripHyphens_last {s : PyStr} {c : Nat}
    (h : (stripHyphens s).getLast? = some c) : c ≠ 45 := by
  unfold stripHyphens at h
  rw [List.getLast?_reverse] at h
  have := head_dropWhile_not h
  simpa using this

theorem stripHyphens_subset {s : PyStr} : stripHyphens s ⊆ s := by
  intro c hc
  have h1 := (stripHyphens_prefix_dropWhile s).subset hc
  exact (List.dropWhile_suffix (· == 45)).subset h1

theorem stripHyphens_noDouble {s : PyStr} (h : noDoubleB s = true) :
    noDoubleB (stripHyphens s) = true :=
  noDoubleB_prefix (stripHyphens_prefix_dropWhile s)
    (noDoubleB_suffix (List.dropWhile_suffix (· == 45)) h)

theorem slugShapeAux (n : Nat) :
    (∀ s : PyStr, s.length ≤ n →
      (∀ c ∈ s, isLowerAlnum c = true ∨ c = 45) → noDoubleB s = true →
      (∀ c, s.getLast? = some c → c ≠ 45) → matchesSlugTail s = true) ∧
    (∀ s : PyStr, s.length ≤ n →
      (∀ c ∈ s, isLowerAlnum c = true ∨ c = 45) → noDoubleB s = true →
      (∀ c, s.head? = some c → c ≠ 45) →
      (∀ c, s.getLast? = some c → c ≠ 45) → s ≠ [] → matchesSlug s = true) := by
  induction n with
  | zero =>
    constructor
    · intro s hlen _ _ _
      rw [List.length_eq_zero.mp (Nat.le_zero.mp hlen)]
      rfl
    · intro s hlen _ _ _ _ hne
      exact absurd (List.length_eq_zero.mp (Nat.le_zero.mp hlen)) hne
  | succ n ihn =>
    obtain ⟨ihT, ihS⟩ := ihn
    constructor
    · intro s hlen hchars hnd hlast
      match s with
      | [] => rfl
      | [c] =>
        have hc : isLowerAlnum c = true := by
          rcases hchars c (List.mem_cons_self _ _) with h | h
          · exact h
          · exact absurd rfl (h ▸ hlast c rfl)
        rw [matchesSlugTail, if_pos hc]
        rfl
      | c :: r0 :: rr =>
        have hlast' : ∀ d, (r0 :: rr).getLast? = some d → d ≠ 45 := by
          intro d hd
          exact hlast d (by rw [List.getLast?_cons_cons]; exact hd)
        rw [matchesSlugTail]
        by_cases hc : isLowerAlnum c = true
        · rw [if_pos hc]
          exact ihT (r0 :: rr) (by simpa using hlen)
            (fun d hd => hchars d (List.mem_cons_of_mem _ hd)) (noDoubleB_tail hnd) hlast'
        · have hc45 : c = 45 := by
            rcases hchars c (List.mem_cons_self _ _) with h | h
            · exact absurd h hc
            · exact h
          subst hc45
          rw [if_neg hc]
          have hr0 : r0 ≠ 45 := by
            intro h45
            exact (noDoubleB_cons.mp hnd).1 r0 rfl ⟨rfl, h45⟩
          have hms : matchesSlug (r0 :: rr) = true :=
            ihS (r0 :: rr) (by simpa using hlen)
              (fun d hd => hchars d (List.mem_cons_of_mem _ hd)) (noDoubleB_tail hnd)
              (by intro d hd; simp only [List.head?_cons, Option.some.injEq] at hd; subst hd; exact hr0)
              hlast' (by simp)
          simp [hms]
    · intro s hlen hchars hnd hhead hlast hne
      match s with
      | c :: rest =>
        rw [matchesSlug]
        have hc : isLowerAlnum c = true := by
          rcases hchars c (List.mem_cons_self _ _) with h | h
          · exact h
          · exact absurd h (hhead c rfl)
        rw [hc]
        simp only [Bool.true_and]
        refine ihT rest (by simpa using hlen)
          (fun d hd => hchars d (List.mem_cons_of_mem _ hd)) (noDoubleB_tail hnd) ?_
        intro d hd
        refine hlast d ?_
        match rest, hd with
        | r0 :: rr, hd => rw [List.getLast?_cons_cons]; exact hd

theorem slugify_shape (t : PyStr) :
    slugify t = [] ∨ matchesSlug (slugify t) = true := by
  by_cases h : slugify t = []
  · exact Or.inl h
  · right
    have hsub : slugify t ⊆ collapseAux false (normalize_text (pyLowerStr t)) :=
      stripHyphens_subset
    refine (slugShapeAux (slugify t).length).2 (slugify t) le_rfl ?_ ?_ ?_ ?_ h
    · intro c hc
      exact collapseAux_chars _ false c (hsub hc)
    · exact stripHyphens_noDouble (collapseAux_noDouble _ false)
    · intro c hc
      exact stripHyphens_head hc
    · intro c hc
      exact stripHyphens_last hc

theorem slugOrUnknown_ok (t : PyStr) :
    matchesSlug (slugOrUnknown t) = true := by
  rw [slugOrUnknown]
  rcases slugify_shape t with h | h
  · rw [if_pos h]
    decide
  · have hne : slugify t ≠ [] := by
      intro he
      rw [he] at h
      exact absurd h (by rw [matchesSlug]; simp)
    rw [if_neg hne]
    exact h

theorem slugify_author_ok (a : Author) : matchesSlug (slugify_author a) = true := by
  rw [slugify_author]
  exact slugOrUnknown_ok _

/-! # Lemmas for collision resolution (C2) -/

theorem lookupCount_none {seen : List (PyStr × Nat)} {k : PyStr} :
    lookupCount seen k = none ↔ ∀ p ∈ seen, p.1 ≠ k := by
  induction seen with
  | nil => simp [lookupCount]
  | cons p r ih =>
    rw [lookupCount]
    by_cases hp : p.1 = k
    · simp [hp]
    · simp only [if_neg hp, ih, List.mem_cons]
      constructor
      · rintro h q (rfl | hq)
        · exact hp
        · exact h q hq
      · intro h q hq
        exact h q (Or.inr hq)

theorem lookupCount_some_mem {seen : List (PyStr × Nat)} {k : PyStr} {n : Nat} :
    lookupCount seen k = some n → (k, n) ∈ seen := by
  induction seen with
  | nil => simp [lookupCount]
  | cons p r ih =>
    intro h
    rw [lookupCount] at h
    by_cases hp : p.1 = k
    · rw [if_pos hp] at h
      simp only [Option.some.injEq] at h
      subst h
      subst hp
      exact List.mem_cons_self _ _
    · rw [if_neg hp] at h
      exact List.mem_cons_of_mem _ (ih h)

theorem lookupCount_unique {seen : List (PyStr × Nat)} {k : PyStr} {n : Nat}
    (hnd : (seen.map Prod.fst).Nodup) (hm : (k, n) ∈ seen) :
    lookupCount seen k = some n := by
  induction seen with
  | nil => simp at hm
  | cons p r ih =>
    rw [List.map_cons, List.nodup_cons] at hnd
    rw [lookupCount]
    rcases List.mem_cons.mp hm with rfl | hm'
    · rw [if_pos rfl]
    · have hp : p.1 ≠ k := by
        intro he
        exact hnd.1 (he ▸ (List.mem_map.mpr ⟨(k, n), hm', rfl⟩))
      rw [if_neg hp]
      exact ih hnd.2 hm'

theorem bumpCount_map_fst (seen : List (PyStr × Nat)) (k : PyStr) :
    (bumpCount seen k).map Prod.fst = seen.map Prod.fst := by
  unfold bumpCount
  rw [List.map_map]
  refine List.map_congr_left ?_
  intro p _
  by_cases hp : p.1 = k
  · simp [hp]
  · simp [hp]

theorem Emitted_mono_cons {seen : List (PyStr × Nat)} {k : PyStr} {m : Nat} {r : PyStr}
    (h : Emitted seen r) : Emitted ((k, m) :: seen) r := by
  rcases h with ⟨p, hp, he⟩ | ⟨p, hp, i, hi, he⟩
  · exact Or.inl ⟨p, List.mem_cons_of_mem _ hp, he⟩
  · exact Or.inr ⟨p, List.mem_cons_of_mem _ hp, i, hi, he⟩

theorem Emitted_mono_bump {seen : List (PyStr × Nat)} {k : PyStr} {r : PyStr}
    (h : Emitted seen r) : Emitted (bumpCount seen k) r := by
  rcases h with ⟨p, hp, he⟩ | ⟨p, hp, i, hi, he⟩
  all_goals
    refine ?_
  · by_cases hpk : p.1 = k
    · exact Or.inl ⟨(p.1, p.2 + 1), List.mem_map.mpr ⟨p, hp, by rw [if_pos hpk]⟩, he⟩
    · exact Or.inl ⟨p, List.mem_map.mpr ⟨p, hp, by rw [if_neg hpk]⟩, he⟩
  · by_cases hpk : p.1 = k
    · exact Or.inr ⟨(p.1, p.2 + 1), List.mem_map.mpr ⟨p, hp, by rw [if_pos hpk]⟩, i,
        Nat.lt_succ_of_lt hi, he⟩
    · exact Or.inr ⟨p, List.mem_map.mpr ⟨p, hp, by rw [if_neg hpk]⟩, i, hi, he⟩

theorem suffix2_cancel {a b : PyStr} {x y u v : Nat}
    (h : a ++ [x, y] = b ++ [u, v]) : a = b ∧ x = u ∧ y = v := by
  obtain ⟨h1, h2⟩ := List.append_inj' h rfl
  simp only [List.cons.injEq, and_true] at h2
  exact ⟨h1, h2.1, h2.2⟩

theorem resolveAux_not_emitted {orig : List PyStr}
    (H : ∀ k ∈ orig, ∀ k' ∈ orig, ∀ c, k' ≠ k ++ [45, c]) :
    ∀ (rest : List PyStr) (seen : List (PyStr × Nat)),
      (∀ k ∈ rest, k ∈ orig) →
      (seen.map Prod.fst).Nodup →
      (∀ p ∈ seen, p.1 ∈ orig) →
      ∀ r ∈ resolveAux seen rest, ¬ Emitted seen r := by
  intro rest
  induction rest with
  | nil =>
    intro seen _ _ _ r hr
    simp [resolveAux] at hr
  | cons k rest ih =>
    intro seen hsub hnd hdom r hr
    have hk : k ∈ orig := hsub k (List.mem_cons_self _ _)
    have hsub' : ∀ k' ∈ rest, k' ∈ orig := fun k' h => hsub k' (List.mem_cons_of_mem _ h)
    rw [resolveAux] at hr
    cases hl : lookupCount seen k with
    | none =>
      rw [hl] at hr
      rcases List.mem_cons.mp hr with rfl | htail
      · rintro (⟨p, hp, he⟩ | ⟨p, hp, i, _, he⟩)
        · exact (lookupCount_none.mp hl p hp) he.symm
        · exact H p.1 (hdom p hp) r hk (97 + i) he
      · intro hem
        have hknotin : k ∉ seen.map Prod.fst := by
          intro hin
          obtain ⟨p, hp, hpe⟩ := List.mem_map.mp hin
          exact (lookupCount_none.mp hl p hp) hpe
        refine ih ((k, 0) :: seen) hsub' ?_ ?_ r htail (Emitted_mono_cons hem)
        · rw [List.map_cons, List.nodup_cons]
          exact ⟨hknotin, hnd⟩
        · intro p hp
          rcases List.mem_cons.mp hp with rfl | hp'
          · exact hk
          · exact hdom p hp'
    | some n =>
      rw [hl] at hr
      rcases List.mem_cons.mp hr with rfl | htail
      · rintro (⟨p, hp, he⟩ | ⟨p, hp, i, hi, he⟩)
        · exact H k hk p.1 (hdom p hp) (97 + n) he.symm
        · obtain ⟨hpk, _, hin⟩ := suffix2_cancel (he.symm : p.1 ++ [45, 97 + i] = k ++ [45, 97 + n])
          have := lookupCount_unique hnd (show (k, p.2) ∈ seen from hpk ▸ hp)
          rw [hl] at this
          simp only [Option.some.injEq] at this
          omega
      · intro hem
        refine ih (bumpCount seen k) hsub' ?_ ?_ r htail (Emitted_mono_bump hem)
        · rw [bumpCount_map_fst]
          exact hnd
        · intro p hp
          obtain ⟨q, hq, hqe⟩ := List.mem_map.mp hp
          have : p.1 = q.1 := by
            by_cases hqk : q.1 = k
            · rw [← hqe, if_pos hqk]
            · rw [← hqe, if_neg hqk]
          rw [this]
          exact hdom q hq

theorem resolveAux_nodup {orig : List PyStr}
    (H : ∀ k ∈ orig, ∀ k' ∈ orig, ∀ c, k' ≠ k ++ [45, c]) :
    ∀ (rest : List PyStr) (seen : List (PyStr × Nat)),
      (∀ k ∈ rest, k ∈ orig) →
      (seen.map Prod.fst).Nodup →
      (∀ p ∈ seen, p.1 ∈ orig) →
      (resolveAux seen rest).Nodup := by
  intro rest
  induction rest with
  | nil =>
    intro seen _ _ _
    simp [resolveAux]
  | cons k rest ih =>
    intro seen hsub hnd hdom
    have hk : k ∈ orig := hsub k (List.mem_cons_self _ _)
    have hsub' : ∀ k' ∈ rest, k' ∈ orig := fun k' h => hsub k' (List.mem_cons_of_mem _ h)
    rw [resolveAux]
    cases hl : lookupCount seen k with
    | none =>
      have hknotin : k ∉ seen.map Prod.fst := by
        intro hin
        obtain ⟨p, hp, hpe⟩ := List.mem_map.mp hin
        exact (lookupCount_none.mp hl p hp) hpe
      have hnd' : (((k, 0) :: seen).map Prod.fst).Nodup := by
        rw [List.map_cons, List.nodup_cons]
        exact ⟨hknotin, hnd⟩
      have hdom' : ∀ p ∈ (k, 0) :: seen, p.1 ∈ orig := by
        intro p hp
        rcases List.mem_cons.mp hp with rfl | hp'
        · exact hk
        · exact hdom p hp'
      rw [List.nodup_cons]
      constructor
      · intro hin
        exact resolveAux_not_emitted H rest ((k, 0) :: seen) hsub' hnd' hdom' k hin
          (Or.inl ⟨(k, 0), List.mem_cons_self _ _, rfl⟩)
      · exact ih ((k, 0) :: seen) hsub' hnd' hdom'
    | some n =>
      have hnd' : ((bumpCount seen k).map Prod.fst).Nodup := by
        rw [bumpCount_map_fst]; exact hnd
      have hdom' : ∀ p ∈ bumpCount seen k, p.1 ∈ orig := by
        intro p hp
        obtain ⟨q, hq, hqe⟩ := List.mem_map.mp hp
        have : p.1 = q.1 := by
          by_cases hqk : q.1 = k
          · rw [← hqe, if_pos hqk]
          · rw [← hqe, if_neg hqk]
        rw [this]
        exact hdom q hq
      rw [List.nodup_cons]
      constructor
      · intro hin
        refine resolveAux_not_emitted H rest (bumpCount seen k) hsub' hnd' hdom'
          (k ++ [45, 97 + n]) hin ?_
        refine Or.inr ⟨(k, n + 1), ?_, n, Nat.lt_succ_self n, rfl⟩
        exact List.mem_map.mpr ⟨(k, n), lookupCount_some_mem hl, by rw [if_pos rfl]⟩
      · exact ih (bumpCount seen k) hsub' hnd' hdom'

theorem noSuffixExtension_spec {keys : List PyStr} (h : noSuffixExtensionB keys = true) :
    ∀ k ∈ keys, ∀ k' ∈ keys, ∀ c, k' ≠ k ++ [45, c] := by
  intro k hk k' hk' c he
  have h1 := List.all_eq_true.mp h k hk
  have h2 := List.all_eq_true.mp h1 k' hk'
  subst he
  simp only [Bool.not_eq_true', Bool.and_eq_false_iff] at h2
  rcases h2 with (h3 | h3) | h3
  · simp at h3
  · rw [List.take_left] at h3
    simp at h3
  · rw [List.drop_left] at h3
    simp at h3

/-! # Lemmas for the author fix-up stages (C4, C6) -/

theorem isAsciiLetter_not_space {c : Nat} (h : isAsciiLetter c = true) :
    pyIsSpace c = false := by
  simp only [isAsciiLetter, Bool.or_eq_true, Bool.and_eq_true, decide_eq_true_eq] at h
  simp only [pyIsSpace, Bool.or_eq_false_iff, Bool.and_eq_false_iff, beq_eq_false_iff_ne,
    ne_eq, decide_eq_false_iff_not, not_le]
  omega

theorem not_space_46 : pyIsSpace 46 = false := by decide

theorem isSingleLetterTok_length {t : PyStr} (h : isSingleLetterTok t = true) :
    t.length ≤ 2 := by
  match t with
  | [] => simp
  | [_] => simp
  | [_, _] => simp
  | _ :: _ :: _ :: _ => simp [isSingleLetterTok] at h

theorem isSingleLetterTok_token {t : PyStr} (h : isSingleLetterTok t = true) :
    t ≠ [] ∧ ∀ c ∈ t, pyIsSpace c = false := by
  match t with
  | [c] =>
    simp only [isSingleLetterTok] at h
    refine ⟨by simp, ?_⟩
    intro d hd
    rcases List.mem_singleton.mp hd with rfl
    exact isAsciiLetter_not_space h
  | [c, d] =>
    simp only [isSingleLetterTok, Bool.and_eq_true, beq_iff_eq] at h
    refine ⟨by simp, ?_⟩
    intro e he
    rcases List.mem_cons.mp he with rfl | he'
    · exact isAsciiLetter_not_space h.1
    · rcases List.mem_singleton.mp he' with rfl
      rw [h.2]
      exact not_space_46
  | [] => simp [isSingleLetterTok] at h
  | _ :: _ :: _ :: _ => simp [isSingleLetterTok] at h

theorem joinSpace_tokens_nonWs {ts : List PyStr}
    (h : ∀ t ∈ ts, t ≠ [] ∧ ∀ c ∈ t, pyIsSpace c = false) :
    NonWsOnly (joinSpace ts) := by
  match ts with
  | [] => exact Or.inl rfl
  | t :: r =>
    obtain ⟨hne, hch⟩ := h t (List.mem_cons_self _ _)
    match t, hne with
    | c :: tr, _ =>
      exact Or.inr ⟨c, mem_joinSpace (List.mem_cons_self _ _) (List.mem_cons_self _ _),
        hch c (List.mem_cons_self _ _)⟩

theorem cleanRaw_nonWs (n : PyStr) : NonWsOnly (cleanRawAuthorName n) := by
  rw [cleanRawAuthorName]
  exact joinSpace_tokens_nonWs (fun t ht => pySplit_tokens t ht)

theorem tryWs_some_fst {ini after : PyStr} :
    ∀ {j : Nat} {i2 g2 : PyStr}, tryWs ini after j = some (i2, g2) → i2 = ini := by
  intro j
  induction j with
  | zero => intro i2 g2 h; simp [tryWs] at h
  | succ j ih =>
    intro i2 g2 h
    rw [tryWs] at h
    cases hd : dotPlusEnd (after.drop (j + 1)) with
    | some g => rw [hd] at h; simp only [Option.some.injEq, Prod.mk.injEq] at h; exact h.1.symm
    | none => rw [hd] at h; exact ih h

theorem matchInitFam_ini {s ini rest : PyStr} (h : matchInitFam s = some (ini, rest)) :
    ∃ c, isAsciiLetter c = true ∧ (ini = [c] ∨ ini = [c, 46]) := by
  match s with
  | [] => simp [matchInitFam] at h
  | c :: r =>
    rw [matchInitFam] at h
    by_cases hc : isAsciiLetter c = true
    · rw [if_pos hc] at h
      by_cases hd : r.head? = some 46
      · rw [if_pos hd] at h
        exact ⟨c, hc, Or.inr (tryWs_some_fst h)⟩
      · rw [if_neg hd] at h
        exact ⟨c, hc, Or.inl (tryWs_some_fst h)⟩
    · rw [if_neg hc] at h
      simp at h

theorem fixMisplacedInitial_nonWs {a : Author} (h : NonWsOnly a.given) :
    NonWsOnly (fixMisplacedInitial a).given := by
  rw [fixMisplacedInitial]
  cases hm : matchInitFam a.family with
  | none => exact h
  | some ir =>
    obtain ⟨ini, rest⟩ := ir
    obtain ⟨c, hc, hini⟩ := matchInitFam_ini hm
    have hcmem : c ∈ ini := by
      rcases hini with rfl | rfl
      · exact List.mem_singleton.mpr rfl
      · exact List.mem_cons_self _ _
    have hcns := isAsciiLetter_not_space hc
    simp only []
    by_cases hg : a.given = []
    · rw [if_pos hg]
      exact Or.inr ⟨c, hcmem, hcns⟩
    · rw [if_neg hg]
      refine Or.inr ⟨c, mem_pyStrip ?_ hcns, hcns⟩
      exact List.mem_append_right _ (List.mem_cons_of_mem _ hcmem)

theorem particleScan_char (gw : List PyStr) :
    ∀ (i : Nat) (acc : Option Nat) (ps : Nat), particleScan gw i acc = some ps →
      (i = 0 ∧ acc = some ps) ∨
      ((decide (pyLowerStr (gw.getD i []) ∈ NAME_PARTICLES)) = false ∧ acc = some ps) ∨
      (1 ≤ ps ∧ ps ≤ i ∧
        (ps = 1 ∨ (decide (pyLowerStr (gw.getD (ps - 1) []) ∈ NAME_PARTICLES)) = false)) := by
  intro i
  induction i with
  | zero =>
    intro acc ps h
    rw [particleScan] at h
    exact Or.inl ⟨rfl, h⟩
  | succ i ih =>
    intro acc ps h
    rw [particleScan] at h
    by_cases hp : (decide (pyLowerStr (gw.getD (i + 1) []) ∈ NAME_PARTICLES)) = true
    · rw [if_pos hp] at h
      rcases ih (some (i + 1)) ps h with ⟨hi0, hacc⟩ | ⟨hnp, hacc⟩ | ⟨h1, h2, h3⟩
      · simp only [Option.some.injEq] at hacc
        subst hi0
        refine Or.inr (Or.inr ⟨by omega, by omega, Or.inl (by omega)⟩)
      · simp only [Option.some.injEq] at hacc
        refine Or.inr (Or.inr ⟨by omega, by omega, Or.inr ?_⟩)
        rw [← hacc]
        simpa using hnp
      · exact Or.inr (Or.inr ⟨h1, by omega, h3⟩)
    · rw [if_neg hp] at h
      exact Or.inr (Or.inl ⟨by simpa using hp, h⟩)

theorem fmp_of_guard {a : Author} (h : a.given = [] ∨ a.family = []) :
    fixMisplacedParticle a = a := by
  rw [fixMisplacedParticle, if_pos h]

theorem fmp_of_short {a : Author} (h : (pySplit a.given).length < 2) :
    fixMisplacedParticle a = a := by
  rw [fixMisplacedParticle]
  by_cases hg : a.given = [] ∨ a.family = []
  · rw [if_pos hg]
  · rw [if_neg hg, if_pos h]

theorem fmp_of_scan_none {a : Author}
    (h : particleScan (pySplit a.given) ((pySplit a.given).length - 1) none = none) :
    fixMisplacedParticle a = a := by
  rw [fixMisplacedParticle]
  by_cases hg : a.given = [] ∨ a.family = []
  · rw [if_pos hg]
  · rw [if_neg hg]
    by_cases h2 : (pySplit a.given).length < 2
    · rw [if_pos h2]
    · rw [if_neg h2, h]

theorem fmp_idem (a : Author) :
    fixMisplacedParticle (fixMisplacedParticle a) = fixMisplacedParticle a := by
  by_cases hg : a.given = [] ∨ a.family = []
  · rw [fmp_of_guard hg, fmp_of_guard hg]
  · by_cases h2 : (pySplit a.given).length < 2
    · rw [fmp_of_short h2, fmp_of_short h2]
    · cases hscan : particleScan (pySplit a.given) ((pySplit a.given).length - 1) none with
      | none => rw [fmp_of_scan_none hscan, fmp_of_scan_none hscan]
      | some ps =>
        have hb : fixMisplacedParticle a =
            { given := joinSpace ((pySplit a.given).take ps),
              family := joinSpace ((pySplit a.given).drop ps) ++ 32 :: a.family } := by
          rw [fixMisplacedParticle, if_neg hg, if_neg h2, hscan]
        rcases particleScan_char (pySplit a.given) _ none ps hscan with
          ⟨h0, hacc⟩ | ⟨_, hacc⟩ | ⟨hps1, hps2, hps3⟩
        · exact absurd hacc (by simp)
        · exact absurd hacc (by simp)
        · have hn2 : 2 ≤ (pySplit a.given).length := by omega
          have htoks : ∀ t ∈ (pySplit a.given).take ps, t ≠ [] ∧
              ∀ c ∈ t, pyIsSpace c = false :=
            fun t ht => pySplit_tokens t (List.take_subset _ _ ht)
          have hsplit : pySplit (joinSpace ((pySplit a.given).take ps)) =
              (pySplit a.given).take ps := pySplit_joinSpace htoks
          have hlen : ((pySplit a.given).take ps).length = ps := by
            rw [List.length_take]
            omega
          rw [hb]
          by_cases hps1' : ps = 1
          · refine fmp_of_short ?_
            simp only [hsplit, hlen]
            omega
          · have hnp : (decide (pyLowerStr ((pySplit a.given).getD (ps - 1) []) ∈
                NAME_PARTICLES)) = false := by
              rcases hps3 with h | h
              · exact absurd h hps1'
              · exact h
            have hgetD : ((pySplit a.given).take ps).getD (ps - 1) [] =
                (pySplit a.given).getD (ps - 1) [] := by
              rw [List.getD_eq_getElem?_getD, List.getD_eq_getElem?_getD,
                List.getElem?_take, if_pos (by omega)]
            obtain ⟨psm, rfl⟩ : ∃ m, ps = m + 2 := ⟨ps - 2, by omega⟩
            refine fmp_of_scan_none ?_
            rw [hsplit, hlen]
            show particleScan ((pySplit a.given).take (psm + 2)) (psm + 1) none = none
            rw [particleScan, if_neg ?_]
            rw [show psm + 1 = psm + 2 - 1 from rfl, hgetD]
            simpa using hnp
  
theorem fslf_of_notSingle {a : Author} (h : isSingleLetterTok a.family = false) :
    fixSingleLetterFamily a = a := by
  rw [fixSingleLetterFamily, if_pos (Or.inl (by simp [h]))]

theorem fslf_idem (a : Author) :
    fixSingleLetterFamily (fixSingleLetterFamily a) = fixSingleLetterFamily a := by
  by_cases hg : ¬ isSingleLetterTok a.family ∨ a.given = []
  · have ha : fixSingleLetterFamily a = a := by rw [fixSingleLetterFamily, if_pos hg]
    rw [ha, ha]
  · by_cases h2 : ¬ (pySplit a.given).any isSingleLetterTok
    · have ha : fixSingleLetterFamily a = a := by
        rw [fixSingleLetterFamily, if_neg hg, if_pos h2]
      rw [ha, ha]
    · by_cases h3 : (pySplit a.given).filter (fun t => !isSingleLetterTok t) = []
      · have ha : fixSingleLetterFamily a = a := by
          rw [fixSingleLetterFamily, if_neg hg, if_neg h2, if_pos h3]
        rw [ha, ha]
      · have hb : fixSingleLetterFamily a =
            { given := joinSpace ((pySplit a.given).filter isSingleLetterTok ++ [a.family]),
              family := joinSpace ((pySplit a.given).filter (fun t => !isSingleLetterTok t)) } := by
          rw [fixSingleLetterFamily, if_neg hg, if_neg h2, if_neg h3]
        rw [hb]
        refine fslf_of_notSingle ?_
        match hnp : (pySplit a.given).filter (fun t => !isSingleLetterTok t), h3 with
        | [t], _ =>
          have ht : isSingleLetterTok t = false := by
            have := List.of_mem_filter (p := fun t => !isSingleLetterTok t)
              (show t ∈ (pySplit a.given).filter (fun t => !isSingleLetterTok t) from by
                rw [hnp]; exact List.mem_cons_self _ _)
            simpa using this
          simpa [joinSpace] using ht
        | t1 :: t2 :: r, _ =>
          have hsub : ∀ t ∈ t1 :: t2 :: r, t ≠ [] := by
            intro t ht
            have hmem : t ∈ List.filter (fun t => !isSingleLetterTok t) (pySplit a.given) := by
              rw [hnp]; exact ht
            exact (pySplit_tokens t (List.mem_of_mem_filter hmem)).1
          have hlen : 3 ≤ (joinSpace (t1 :: t2 :: r)).length := by
            have ht1 : t1 ≠ [] := hsub t1 (List.mem_cons_self _ _)
            have hrest : joinSpace (t2 :: r) ≠ [] := by
              refine joinSpace_ne_nil (by simp) ?_
              intro t ht
              exact hsub t (List.mem_cons_of_mem _ ht)
            show 3 ≤ (t1 ++ 32 :: joinSpace (t2 :: r)).length
            rw [List.length_append]
            have h1 : 1 ≤ t1.length := List.length_pos.mpr ht1
            have h2' : 1 ≤ (joinSpace (t2 :: r)).length := List.length_pos.mpr hrest
            simp only [List.length_cons]
            omega
          cases hj : joinSpace (t1 :: t2 :: r) with
          | nil => rw [hj] at hlen; simp at hlen
          | cons x xs =>
            rw [hj] at hlen
            match xs, hlen with
            | y :: z :: zs, _ => rfl

theorem fmp_nonWs {a : Author} (h : NonWsOnly a.given) :
    NonWsOnly (fixMisplacedParticle a).given := by
  by_cases hg : a.given = [] ∨ a.family = []
  · rw [fmp_of_guard hg]; exact h
  · by_cases h2 : (pySplit a.given).length < 2
    · rw [fmp_of_short h2]; exact h
    · cases hscan : particleScan (pySplit a.given) ((pySplit a.given).length - 1) none with
      | none => rw [fmp_of_scan_none hscan]; exact h
      | some ps =>
        rw [fixMisplacedParticle, if_neg hg, if_neg h2, hscan]
        exact joinSpace_tokens_nonWs
          (fun t ht => pySplit_tokens t (List.take_subset _ _ ht))

theorem fslf_nonWs {a : Author} (h : NonWsOnly a.given) :
    NonWsOnly (fixSingleLetterFamily a).given := by
  by_cases hg : ¬ isSingleLetterTok a.family ∨ a.given = []
  · rw [fixSingleLetterFamily, if_pos hg]; exact h
  · by_cases h2 : ¬ (pySplit a.given).any isSingleLetterTok
    · rw [fixSingleLetterFamily, if_neg hg, if_pos h2]; exact h
    · by_cases h3 : (pySplit a.given).filter (fun t => !isSingleLetterTok t) = []
      · rw [fixSingleLetterFamily, if_neg hg, if_neg h2, if_pos h3]; exact h
      · rw [fixSingleLetterFamily, if_neg hg, if_neg h2, if_neg h3]
        refine joinSpace_tokens_nonWs ?_
        intro t ht
        rcases List.mem_append.mp ht with ht' | ht'
        · exact pySplit_tokens t (List.mem_of_mem_filter ht')
        · rcases List.mem_singleton.mp ht' with rfl
          have hs : isSingleLetterTok a.family = true := by
            rcases not_or.mp hg with ⟨hh, _⟩
            simpa using hh
          exact isSingleLetterTok_token hs

theorem fixLHF_ok {a : Author} (h : NonWsOnly a.given) :
    ∃ b, fixLeadingHyphenFamily a = .ok b := by
  rw [fixLeadingHyphenFamily]
  by_cases hg : ¬ (a.family.head? = some 45) ∨ a.given = []
  · rw [if_pos hg]
    exact ⟨a, rfl⟩
  · rw [if_neg hg]
    rcases not_or.mp hg with ⟨_, hgiven⟩
    rcases h with h | ⟨c, hc, hcns⟩
    · exact absurd h hgiven
    · have hsp : pySplit a.given ≠ [] := by
        intro he
        exact absurd (pySplit_eq_nil_iff.mp he c hc) (by simp [hcns])
      cases hl : (pySplit a.given).getLast? with
      | none => exact absurd (List.getLast?_eq_none_iff.mp hl) hsp
      | some t => exact ⟨_, rfl⟩

theorem processAuthor_dict_ok (g f sl : Option PyStr) :
    ∃ b, processAuthor (.dict g f sl) = .ok b := by
  rw [processAuthor, authorPipelineE]
  have h1 := cleanRaw_nonWs (repair_mojibake (getOrEmpty g))
  have h2 := fixMisplacedInitial_nonWs (a :=
    { given := cleanRawAuthorName (repair_mojibake (getOrEmpty g)),
      family := cleanRawAuthorName (repair_mojibake (getOrEmpty f)) }) h1
  have h3 := fmp_nonWs h2
  have h4 := fslf_nonWs h3
  obtain ⟨b, hb⟩ := fixLHF_ok h4
  rw [hb]
  exact ⟨_, rfl⟩

theorem processAuthors_bare {l : List AuthorVal}
    (h : ∃ a ∈ l, ∃ s, a = .bare s) : processAuthors l = .error .attributeError := by
  induction l with
  | nil => simp at h
  | cons a r ih =>
    obtain ⟨a', ha', s, hs⟩ := h
    cases a with
    | bare s' => rw [processAuthors]; rfl
    | dict g f sl =>
      obtain ⟨b, hb⟩ := processAuthor_dict_ok g f sl
      rw [processAuthors, hb]
      have hr : ∃ a ∈ r, ∃ s, a = .bare s := by
        rcases List.mem_cons.mp ha' with rfl | hmem
        · cases hs
        · exact ⟨a', hmem, s, hs⟩
      rw [ih hr]

theorem processAuthor_no_keyError (a : AuthorVal) :
    ∀ m pr, processAuthor a ≠ .error (.keyError m pr) := by
  intro m pr
  cases a with
  | bare s => rw [processAuthor]; simp
  | dict g f sl =>
    obtain ⟨b, hb⟩ := processAuthor_dict_ok g f sl
    rw [hb]
    simp

theorem processAuthors_no_keyError (l : List AuthorVal) :
    ∀ m pr, processAuthors l ≠ .error (.keyError m pr) := by
  induction l with
  | nil => intro m pr; rw [processAuthors]; simp
  | cons a r ih =>
    intro m pr
    rw [processAuthors]
    cases ha : processAuthor a with
    | ok b =>
      cases hr : processAuthors r with
      | ok bs => simp
      | error e =>
        simp only [ne_eq, Except.error.injEq]
        intro he
        exact ih m pr (by rw [hr, he])
    | error e =>
      simp only [ne_eq, Except.error.injEq]
      intro he
      exact processAuthor_no_keyError a m pr (by rw [ha, he])

/-! # Structural lemmas about normalize_paper (C1, C3, C4, C5, C10) -/

theorem getStrField_mkOut (p : PyDict) (T : PyStr) (A : List AuthorVal) (AB CU : PyStr) :
    getStrField (mkOut p T A AB CU) kTitle = .ok T := rfl

theorem getAuthorsField_mkOut (p : PyDict) (T : PyStr) (A : List AuthorVal) (AB CU : PyStr) :
    getAuthorsField (mkOut p T A AB CU) = .ok A := rfl

theorem getStrFieldD_mkOut_abstract (p : PyDict) (T : PyStr) (A : List AuthorVal)
    (AB CU : PyStr) : getStrFieldD (mkOut p T A AB CU) kAbstract = .ok AB := rfl

theorem getStrFieldD_mkOut_code (p : PyDict) (T : PyStr) (A : List AuthorVal)
    (AB CU : PyStr) : getStrFieldD (mkOut p T A AB CU) kCodeUrl = .ok CU := rfl

theorem required_filter_mkOut (p : PyDict) (T : PyStr) (A : List AuthorVal) (AB CU : PyStr) :
    REQUIRED_PAPER_FIELDS.filter (fun f => !hasKeyB (mkOut p T A AB CU) f) = [] := rfl

theorem mkOut_mkOut (p : PyDict) (T : PyStr) (A : List AuthorVal) (AB CU : PyStr)
    (T' : PyStr) (A' : List AuthorVal) (AB' CU' : PyStr) :
    mkOut (mkOut p T A AB CU) T' A' AB' CU' = mkOut p T' A' AB' CU' := rfl

theorem dictKeys_mkOut (p : PyDict) (T : PyStr) (A : List AuthorVal) (AB CU : PyStr) :
    dictKeys (mkOut p T A AB CU) = CANONICAL_KEYS := rfl

theorem titleChain_fold (T : PyStr) :
    normalize_title_case (repair_mojibake (unescape T)) = titleChain T := rfl

theorem titleStableB_mkOut (p : PyDict) (T : PyStr) (A : List AuthorVal) (AB CU : PyStr) :
    titleStableB (mkOut p T A AB CU) = (titleChain T == T) := rfl

theorem abstractStableB_mkOut (p : PyDict) (T : PyStr) (A : List AuthorVal) (AB CU : PyStr) :
    abstractStableB (mkOut p T A AB CU) = (repair_mojibake AB == AB) := rfl

theorem codeUrlStableB_mkOut_eq (p : PyDict) (T : PyStr) (A : List AuthorVal) (AB CU : PyStr) :
    codeUrlStableB (mkOut p T A AB CU) = (clean_code_url CU == CU) := rfl

theorem authorsStableB_mkOut (p : PyDict) (T : PyStr) (A : List AuthorVal) (AB CU : PyStr) :
    authorsStableB (mkOut p T A AB CU) = A.all authorEntryStableB := rfl

theorem normalize_paper_ok_shape {p q : PyDict} (h : normalize_paper p = .ok q) :
    ∃ t as cleaned ab cu,
      getStrField p kTitle = .ok t ∧ getAuthorsField p = .ok as ∧
      processAuthors as = .ok cleaned ∧ getStrFieldD p kAbstract = .ok ab ∧
      getStrFieldD p kCodeUrl = .ok cu ∧
      q = mkOut p (titleChain t) ((cleaned.filter authorKeep).map attachSlug)
        (repair_mojibake ab) (clean_code_url cu) := by
  rw [normalize_paper] at h
  split at h
  · exact Except.noConfusion h
  · split at h
    · exact Except.noConfusion h
    · rename_i t heq1
      split at h
      · exact Except.noConfusion h
      · rename_i as heq2
        split at h
        · exact Except.noConfusion h
        · rename_i cleaned heq3
          split at h
          · exact Except.noConfusion h
          · rename_i ab heq4
            split at h
            · exact Except.noConfusion h
            · rename_i cu heq5
              injection h with h'
              exact ⟨t, as, cleaned, ab, cu, heq1, heq2, heq3, heq4, heq5, h'.symm⟩

theorem normalize_paper_keys {p q : PyDict} (h : normalize_paper p = .ok q) :
    dictKeys q = CANONICAL_KEYS := by
  obtain ⟨t, as, cleaned, ab, cu, _, _, _, _, _, rfl⟩ := normalize_paper_ok_shape h
  exact dictKeys_mkOut _ _ _ _ _

theorem authorEntryStable_spec {g f : PyStr} {sl : Option PyStr}
    (h : authorEntryStableB (.dict (some g) (some f) sl) = true) :
    processAuthor (.dict (some g) (some f) sl) = .ok ⟨g, f⟩ := by
  have hunf : authorEntryStableB (.dict (some g) (some f) sl) =
      (match processAuthor (.dict (some g) (some f) sl) with
       | .ok b => decide (b = ⟨g, f⟩)
       | .error _ => false) := rfl
  rw [hunf] at h
  cases hp : processAuthor (.dict (some g) (some f) sl) with
  | ok b =>
    rw [hp] at h
    simp only [] at h
    have : b = ⟨g, f⟩ := of_decide_eq_true h
    rw [this]
  | error e =>
    rw [hp] at h
    simp at h

theorem processAuthors_map_attach {as : List Author}
    (h : (as.map attachSlug).all authorEntryStableB = true) :
    processAuthors (as.map attachSlug) = .ok as := by
  induction as with
  | nil => rfl
  | cons a r ih =>
    rw [List.map_cons, List.all_cons, Bool.and_eq_true] at h
    have ha := authorEntryStable_spec (h.1 : authorEntryStableB (attachSlug a) = true)
    rw [List.map_cons, processAuthors, attachSlug, ha, ih h.2]

theorem normalize_paper_fixpoint (p : PyDict) (T : PyStr) (as : List Author) (AB CU : PyStr)
    (hT : titleChain T = T) (hAB : repair_mojibake AB = AB) (hCU : clean_code_url CU = CU)
    (hAs : processAuthors (as.map attachSlug) = .ok as)
    (hKeep : as.filter authorKeep = as) :
    normalize_paper (mkOut p T (as.map attachSlug) AB CU) =
      .ok (mkOut p T (as.map attachSlug) AB CU) := by
  rw [normalize_paper, required_filter_mkOut, if_neg (fun hc => hc rfl)]
  simp only [getStrField_mkOut, getAuthorsField_mkOut, getStrFieldD_mkOut_abstract,
    getStrFieldD_mkOut_code, hAs, titleChain_fold, hT, hAB, hCU, hKeep, mkOut_mkOut]

/-! # Lemmas for first_content_word (C7), parse_author_name (C9) and error classes (C3) -/

theorem goodTokB_iff {t : PyStr} :
    goodTokB t = true ↔
      (2 ≤ (tokenSlug t).length ∧ tokenSlug t ∉ STOPWORDS ∧
        (tokenSlug t).any isAsciiLower = true) := by
  simp [goodTokB, and_assoc]

theorem fcwLoop1_eq_find (ts : List PyStr) :
    fcwLoop1 ts = ((ts.find? goodTokB).map tokenSlug) := by
  induction ts with
  | nil => rfl
  | cons t r ih =>
    rw [fcwLoop1]
    by_cases h : 2 ≤ (tokenSlug t).length ∧ tokenSlug t ∉ STOPWORDS ∧
        (tokenSlug t).any isAsciiLower = true
    · rw [if_pos h, List.find?_cons_of_pos _ (goodTokB_iff.mpr h)]
      rfl
    · rw [if_neg h, List.find?_cons_of_neg _ ?_, ih]
      intro hg
      exact h (goodTokB_iff.mp hg)

theorem fcwLoop2_eq_find (ts : List PyStr) :
    fcwLoop2 ts = ((ts.find? hasLetterB).map tokenSlug) := by
  induction ts with
  | nil => rfl
  | cons t r ih =>
    rw [fcwLoop2]
    by_cases h : (tokenSlug t).any isAsciiLower = true
    · rw [if_pos h, List.find?_cons_of_pos _ (by simpa [hasLetterB] using h)]
      rfl
    · rw [if_neg h, List.find?_cons_of_neg _ (by simpa [hasLetterB] using h), ih]

theorem fcwTokens_fold (title : PyStr) :
    reFindTokens (stripLatex (normalize_text (unescape title))) = fcwTokens title := rfl

theorem first_content_word_eq (title : PyStr) :
    first_content_word title =
      (match (fcwTokens title).find? goodTokB with
       | some t => tokenSlug t
       | none =>
         match (fcwTokens title).find? hasLetterB with
         | some t => tokenSlug t
         | none => pstr ("paper")) := by
  rw [first_content_word, fcwTokens_fold, fcwLoop1_eq_find, fcwLoop2_eq_find]
  cases (fcwTokens title).find? goodTokB with
  | some t => rfl
  | none =>
    cases (fcwTokens title).find? hasLetterB with
    | some t => rfl
    | none => rfl

theorem familyStartIdx_lt {parts : List PyStr} (h2 : 2 ≤ parts.length) :
    familyStartIdx parts < parts.length := by
  rw [familyStartIdx]
  cases hf : (List.range' 1 (parts.length - 2)).find?
      (fun i => decide ((parts.getD i []) ∈ NAME_PARTICLES)) with
  | none =>
    show parts.length - 1 < parts.length
    omega
  | some i =>
    have hm := List.mem_of_find?_eq_some hf
    rw [List.mem_range'] at hm
    obtain ⟨j, hj, rfl⟩ := hm
    show 1 + 1 * j < parts.length
    omega

theorem matchesSlug_ne_nil {s : PyStr} (h : matchesSlug s = true) : s ≠ [] := by
  intro he
  rw [he, matchesSlug] at h
  exact Bool.noConfusion h

theorem dictGet_mkOut_authors (p : PyDict) (T : PyStr) (A : List AuthorVal) (AB CU : PyStr) :
    dictGet (mkOut p T A AB CU) kAuthors = some (.authors A) := rfl

theorem getStrField_no_keyError {p : PyDict} {k : PyStr} {m pr : List PyStr}
    (h : getStrField p k = .error (.keyError m pr)) : False := by
  rw [getStrField] at h
  split at h <;> simp_all

theorem getStrFieldD_no_keyError {p : PyDict} {k : PyStr} {m pr : List PyStr}
    (h : getStrFieldD p k = .error (.keyError m pr)) : False := by
  rw [getStrFieldD] at h
  split at h <;> simp_all

theorem getAuthorsField_no_keyError {p : PyDict} {m pr : List PyStr}
    (h : getAuthorsField p = .error (.keyError m pr)) : False := by
  rw [getAuthorsField] at h
  split at h <;> simp_all


/-! # The claims

Each claim is settled by a single theorem; a corrected claim also carries a
counterexample theorem at a concrete input refuting its original wording,
and theorems with hypotheses carry a closed witness. -/

unseal pySplit unescSub latexSub1 latexBareSub ftMain ftAux annotSub parenSub bibtexSub mdLinkFind

/-- C1, counterexample: `normalize_paper` is not idempotent as claimed.
`c1CexIn` is accepted (all required fields present), but re-running
`normalize_paper` on its own output `c1CexMid` repairs the doubly
mojibake-encoded abstract a second time and changes the record. -/
theorem c1_cex : normalize_paper c1CexIn = .ok c1CexMid ∧
    normalize_paper c1CexMid ≠ .ok c1CexMid :=
  ⟨by decide, by decide⟩

/-- C1 (corrected): `normalize_paper` is idempotent exactly on outputs whose
title, abstract, `code_url` and author entries are already fixed points of
their cleaning chains: re-running it on such an output reproduces the
output. -/
theorem c1_idempotent_on_stable (p q : PyDict)
    (h : normalize_paper p = .ok q)
    (ht : titleStableB q = true) (hab : abstractStableB q = true)
    (hcu : codeUrlStableB q = true) (has : authorsStableB q = true) :
    normalize_paper q = .ok q := by
  obtain ⟨t, as, cleaned, ab, cu, _, _, _, _, _, rfl⟩ := normalize_paper_ok_shape h
  rw [titleStableB_mkOut] at ht
  rw [abstractStableB_mkOut] at hab
  rw [codeUrlStableB_mkOut_eq] at hcu
  rw [authorsStableB_mkOut] at has
  have hKeep : (cleaned.filter authorKeep).filter authorKeep =
      cleaned.filter authorKeep :=
    List.filter_eq_self.mpr (fun a ha => List.of_mem_filter ha)
  exact normalize_paper_fixpoint p _ _ _ _ (eq_of_beq ht) (eq_of_beq hab)
    (eq_of_beq hcu) (processAuthors_map_attach has) hKeep

/-- C1 witness: the output of the John Doe paper is stable, and
`normalize_paper` maps it to itself. -/
theorem c1_witness : normalize_paper c1WitMid = .ok c1WitMid :=
  c1_idempotent_on_stable c1WitIn c1WitMid (by decide) (by decide) (by decide)
    (by decide) (by decide)

/-- C2, counterexample: collision resolution can itself collide — on the
batch `["a", "a", "a-a"]` the suffixed second `"a"` becomes `"a-a"` and
duplicates the third key. -/
theorem c2_cex : ¬ (resolve_bibtex_collisions c2CexKeys).Nodup := by decide

/-- C2 (corrected): when no key of the batch extends another key of the
batch by a hyphen and one character, the resolved batch is pairwise
distinct. -/
theorem c2_nodup_of_noSuffixExtension (keys : List PyStr)
    (h : noSuffixExtensionB keys = true) :
    (resolve_bibtex_collisions keys).Nodup := by
  rw [resolve_bibtex_collisions]
  exact resolveAux_nodup (noSuffixExtension_spec h) keys [] (fun k hk => hk)
    (by simp) (by simp)

/-- C2 witness: the batch `["a", "a", "b"]` resolves without duplicates. -/
theorem c2_witness : (resolve_bibtex_collisions c2WitKeys).Nodup :=
  c2_nodup_of_noSuffixExtension c2WitKeys (by decide)

/-- C3, counterexample: the failure condition is not an `iff` — `c3CexIn`
carries every required field, yet `normalize_paper` fails (AttributeError
on its bare author string). -/
theorem c3_cex :
    REQUIRED_PAPER_FIELDS.filter (fun f => !hasKeyB c3CexIn f) = [] ∧
    normalize_paper c3CexIn = .error .attributeError :=
  ⟨by decide, by decide⟩

/-- C3 (corrected): a missing required field makes `normalize_paper` fail
with the missing-field list in canonical order and the sorted present keys;
when every required field is present, no KeyError is raised (though other
failures remain possible); on `{"title": "x"}` the missing list is
`["bibtex_key", "authors", "year"]`. -/
theorem c3_missing_fields (p : PyDict) :
    ((∃ f ∈ REQUIRED_PAPER_FIELDS, hasKeyB p f = false) →
      normalize_paper p =
        .error (.keyError (REQUIRED_PAPER_FIELDS.filter (fun f => !hasKeyB p f))
          (pySorted (dictKeys p)))) ∧
    ((∀ f ∈ REQUIRED_PAPER_FIELDS, hasKeyB p f = true) →
      ∀ m pr, normalize_paper p ≠ .error (.keyError m pr)) ∧
    normalize_paper c3ExampleIn =
      .error (.keyError [kBibtexKey, kAuthors, kYear] [kTitle]) := by
  refine ⟨?_, ?_, by decide⟩
  · intro hex
    have hne : REQUIRED_PAPER_FIELDS.filter (fun f => !hasKeyB p f) ≠ [] := by
      obtain ⟨f, hf, hfal⟩ := hex
      exact List.ne_nil_of_mem (List.mem_filter.mpr ⟨hf, by simp [hfal]⟩)
    rw [normalize_paper, if_pos hne]
  · intro hall m pr
    have hfil : REQUIRED_PAPER_FIELDS.filter (fun f => !hasKeyB p f) = [] :=
      List.filter_eq_nil_iff.mpr (fun f hf => by simp [hall f hf])
    rw [normalize_paper, hfil, if_neg (fun hc => hc rfl)]
    split
    · rename_i e heq
      intro hc
      injection hc with hc'
      rw [hc'] at heq
      exact getStrField_no_keyError heq
    · split
      · rename_i e heq
        intro hc
        injection hc with hc'
        rw [hc'] at heq
        exact getAuthorsField_no_keyError heq
      · split
        · rename_i e heq
          intro hc
          injection hc with hc'
          rw [hc'] at heq
          exact processAuthors_no_keyError _ m pr heq
        · split
          · rename_i e heq
            intro hc
            injection hc with hc'
            rw [hc'] at heq
            exact getStrFieldD_no_keyError heq
          · split
            · rename_i e heq
              intro hc
              injection hc with hc'
              rw [hc'] at heq
              exact getStrFieldD_no_keyError heq
            · simp

/-- C4, counterexample: a bare author string is never parsed by
`normalize_paper` — the accepted input `c4CexIn` fails with
AttributeError. -/
theorem c4_cex :
    REQUIRED_PAPER_FIELDS.filter (fun f => !hasKeyB c4CexIn f) = [] ∧
    normalize_paper c4CexIn = .error .attributeError :=
  ⟨by decide, by decide⟩

/-- C4 (corrected): on any raw paper with every required field present, a
string-valued title and an authors list containing a bare name string,
`normalize_paper` raises AttributeError (`a.get` on a `str`): bare strings
are not parsed into name parts; the adapters pre-parse names
themselves. -/
theorem c4_bare_author_raises (p : PyDict) (l : List AuthorVal) (t : PyStr)
    (hall : ∀ f ∈ REQUIRED_PAPER_FIELDS, hasKeyB p f = true)
    (ht : dictGet p kTitle = some (.str t))
    (hl : dictGet p kAuthors = some (.authors l))
    (hbare : ∃ a ∈ l, ∃ s, a = .bare s) :
    normalize_paper p = .error .attributeError := by
  have hfil : REQUIRED_PAPER_FIELDS.filter (fun f => !hasKeyB p f) = [] :=
    List.filter_eq_nil_iff.mpr (fun f hf => by simp [hall f hf])
  have h1 : getStrField p kTitle = .ok t := by rw [getStrField, ht]
  have h2 : getAuthorsField p = .ok l := by rw [getAuthorsField, hl]
  rw [normalize_paper, hfil, if_neg (fun hc => hc rfl)]
  simp only [h1, h2, processAuthors_bare hbare]

/-- C4 witness: the Mary Major + bare Jane Roe paper raises
AttributeError. -/
theorem c4_witness : normalize_paper c4WitIn = .error .attributeError :=
  c4_bare_author_raises c4WitIn
    [ .dict (some (pstr ("Mary"))) (some (pstr ("Major"))) none,
      .bare (pstr ("Jane Roe")) ]
    (pstr ("T4w")) (by decide) (by decide) (by decide)
    ⟨.bare (pstr ("Jane Roe")), by decide, pstr ("Jane Roe"), rfl⟩

/-- C5, counterexample: extra keys do not pass through — the `arxiv_url`
key that the cvf adapter sets is present in the input `c5CexIn` and absent
from the output. -/
theorem c5_cex :
    dictGet c5CexIn (pstr ("arxiv_url")) =
      some (.str (pstr ("https://arxiv.org/abs/1"))) ∧
    normalize_paper c5CexIn = .ok c5CexOut ∧
    dictGet c5CexOut (pstr ("arxiv_url")) = none :=
  ⟨by decide, by decide, by decide⟩

/-- C5 (corrected): the key list of every `normalize_paper` output is
exactly the fixed 18-key canonical list, in declaration order; every other
input key is dropped. -/
theorem c5_canonical_keys (p q : PyDict) (h : normalize_paper p = .ok q) :
    dictKeys q = CANONICAL_KEYS :=
  normalize_paper_keys h

/-- C5 witness: the award-carrying paper's output has exactly the canonical
keys. -/
theorem c5_witness : dictKeys c5WitOut = CANONICAL_KEYS :=
  c5_canonical_keys c5WitIn c5WitOut (by decide)

/-- C6, counterexample: `_fix_misplaced_initial` is not idempotent — with
given `"David"` and family `"A B Clifton"` a second application moves a
second initial out of the family. -/
theorem c6_cex :
    fixMisplacedInitial (fixMisplacedInitial
        ⟨pstr ("David"), pstr ("A B Clifton")⟩) ≠
      fixMisplacedInitial ⟨pstr ("David"), pstr ("A B Clifton")⟩ := by decide

/-- C6 (corrected): of the repair stages, `_fix_misplaced_particle` and
`_fix_single_letter_family` are idempotent on every author record; the
stage `_fix_misplaced_initial` is not (see the counterexample). -/
theorem c6_stage_idempotence (a : Author) :
    fixMisplacedParticle (fixMisplacedParticle a) = fixMisplacedParticle a ∧
    fixSingleLetterFamily (fixSingleLetterFamily a) = fixSingleLetterFamily a :=
  ⟨fmp_idem a, fslf_idem a⟩

/-- C7 (confirmed): `first_content_word` returns the slug of the first
token that is at least two characters, not a stopword and contains a
letter; otherwise the slug of the first token containing a letter;
otherwise the literal `"paper"`; and on the spec's example title it
returns `"c2dpo"`. -/
theorem c7_first_content_word :
    (∀ title : PyStr,
      (∀ t, (fcwTokens title).find? goodTokB = some t →
        first_content_word title = tokenSlug t) ∧
      ((fcwTokens title).find? goodTokB = none →
        ∀ t, (fcwTokens title).find? hasLetterB = some t →
          first_content_word title = tokenSlug t) ∧
      (fcwTokens title = [] → first_content_word title = pstr ("paper"))) ∧
    first_content_word c7Title = pstr ("c2dpo") := by
  constructor
  · intro title
    refine ⟨?_, ?_, ?_⟩
    · intro t ht
      rw [first_content_word_eq, ht]
    · intro h1 t h2
      rw [first_content_word_eq, h1, h2]
    · intro hnil
      rw [first_content_word_eq, hnil]
      rfl
  · decide

/-- C8 (confirmed): `repair_mojibake` is the identity on any text with no
character in U+00C2..U+00DF, and on every input it returns either the
input itself or the successful strict UTF-8 reading of its Latin-1 bytes —
it never raises. -/
theorem c8_repair_mojibake (t : PyStr) :
    ((∀ c ∈ t, ¬(0xC2 ≤ c ∧ c ≤ 0xDF)) → repair_mojibake t = t) ∧
    (repair_mojibake t = t ∨ utf8Decode t = some (repair_mojibake t)) := by
  constructor
  · intro hno
    have hany : t.any (fun c => decide (0xC2 ≤ c) && decide (c ≤ 0xDF)) = false := by
      rw [List.any_eq_false]
      intro c hc
      simp only [Bool.and_eq_true, decide_eq_true_eq, not_and]
      exact fun h1 h2 => hno c hc ⟨h1, h2⟩
    rw [repair_mojibake]
    split
    · rfl
    · rw [if_pos (by simp [hany])]
  · rw [repair_mojibake]
    split
    · exact Or.inl rfl
    · split
      · exact Or.inl rfl
      · split
        · exact Or.inl rfl
        · rename_i bs hbs
          have hbst : bs = t := by
            rw [encodeLatin1] at hbs
            split at hbs
            · injection hbs with h'
              exact h'.symm
            · exact Option.noConfusion hbs
          subst hbst
          split
          · rename_i r hr
            exact Or.inr hr
          · exact Or.inl rfl

/-- C9 (confirmed): on any input containing a non-whitespace character,
`parse_author_name` returns a record with a non-empty family field. -/
theorem c9_family_nonempty (s : PyStr) (h : ∃ c ∈ s, pyIsSpace c = false) :
    (parse_author_name s).family ≠ [] := by
  have hstrip : pyStrip s ≠ [] := pyStrip_ne_nil h
  have hsplit : pySplit (pyStrip s) ≠ [] := by
    intro hnil
    obtain ⟨c, hm, hc⟩ := h
    have hws := pySplit_eq_nil_iff.mp hnil c (mem_pyStrip hm hc)
    rw [hws] at hc
    exact Bool.noConfusion hc
  rw [parse_author_name, if_neg hstrip]
  by_cases h1 : (pySplit (pyStrip s)).length = 1
  · rw [if_pos h1]
    show (pySplit (pyStrip s)).headD [] ≠ []
    cases hps : pySplit (pyStrip s) with
    | nil => exact absurd hps hsplit
    | cons tk r =>
      show tk ≠ []
      exact (pySplit_tokens tk (by rw [hps]; exact List.mem_cons_self tk r)).1
  · rw [if_neg h1]
    show joinSpace ((pySplit (pyStrip s)).drop
      (familyStartIdx (pySplit (pyStrip s)))) ≠ []
    have h0 : (pySplit (pyStrip s)).length ≠ 0 :=
      fun hz => hsplit (List.length_eq_zero.mp hz)
    have h2 : 2 ≤ (pySplit (pyStrip s)).length := by omega
    have hlt := familyStartIdx_lt h2
    apply joinSpace_ne_nil
    · intro hdrop
      have hz : (pySplit (pyStrip s)).length -
          familyStartIdx (pySplit (pyStrip s)) = 0 := by
        rw [← List.length_drop, hdrop]
        rfl
      omega
    · intro tk ht
      exact (pySplit_tokens tk (List.mem_of_mem_drop ht)).1

/-- C9 witness: `parse_author_name "John Doe"` has a non-empty family. -/
theorem c9_witness : (parse_author_name (pstr ("John Doe"))).family ≠ [] :=
  c9_family_nonempty (pstr ("John Doe")) ⟨74, by decide, by decide⟩

/-- C10 (confirmed): every author entry of a `normalize_paper` output
carries given, family and slug fields; the slug is `slugify_author` of the
name (so `"unknown"` when slugification yields nothing), is non-empty and
matches `[a-z0-9]+(-[a-z0-9]+)*`. -/
theorem c10_output_slugs (p q : PyDict) (h : normalize_paper p = .ok q)
    (l : List AuthorVal) (hl : dictGet q kAuthors = some (.authors l)) :
    ∀ av ∈ l, ∃ g f sl, av = .dict (some g) (some f) (some sl) ∧
      sl = slugify_author ⟨g, f⟩ ∧ sl ≠ [] ∧ matchesSlug sl = true := by
  obtain ⟨t, as, cleaned, ab, cu, _, _, _, _, _, rfl⟩ := normalize_paper_ok_shape h
  rw [dictGet_mkOut_authors] at hl
  injection hl with hl'
  injection hl' with hl''
  subst hl''
  intro av hav
  obtain ⟨a, ha, rfl⟩ := List.mem_map.mp hav
  exact ⟨a.given, a.family, slugify_author a, rfl, rfl,
    matchesSlug_ne_nil (slugify_author_ok a), slugify_author_ok a⟩

/-- C10 witness: the Lihua Xie entry of the output on `c10WitIn` carries the
slug `"xie-lihua"`, non-empty and of slug shape. -/
theorem c10_witness :
    ∃ g f sl,
      AuthorVal.dict (some (pstr ("Lihua"))) (some (pstr ("Xie")))
          (some (pstr ("xie-lihua"))) = .dict (some g) (some f) (some sl) ∧
      sl = slugify_author ⟨g, f⟩ ∧ sl ≠ [] ∧ matchesSlug sl = true :=
  c10_output_slugs c10WitIn c10WitOut (by decide)
    [ .dict (some (pstr ("Lihua"))) (some (pstr ("Xie")))
        (some (pstr ("xie-lihua"))) ]
    (by decide)
    (.dict (some (pstr ("Lihua"))) (some (pstr ("Xie")))
      (some (pstr ("xie-lihua"))))
    (by decide)

end MLAnthology
